import Mathlib

set_option maxRecDepth 40000

/-!
Verification of the NCERT textbook-extraction pipeline (`src/solution.py`).

The program text is shallowly embedded: Python strings become `List Char`
(`Str`), Python's `str.split()` / `str.strip()` / `str.replace(...)` are
re-implemented character by character, `json.loads` / `json.dumps` are
modelled by an executable recursive-descent parser and printer over a
`Json` value type (restricted to integer numerals; floats and `\u`
surrogate pairs are outside the model), and the external Gemini
generation call becomes a function parameter returning a `GenOutcome`
(an exception, a falsy response, or a response text).
-/

abbrev Str := List Char

def toStr (s : String) : Str := s.data

/-- ASCII whitespace as recognised by Python's `str.split()` and
`str.strip()` (the model restricts the alphabet to ASCII whitespace). -/
def pyIsSpace (c : Char) : Bool :=
  c = ' ' || c = '\t' || c = '\n' || c = '\r' || c = '\x0b' || c = '\x0c'

/-- Worker for `pySplit`; `cur` is the current word accumulated in reverse. -/
def pySplitAux : Str → Str → List Str
  | [], cur => if cur = [] then [] else [cur.reverse]
  | c :: rest, cur =>
    if pyIsSpace c then
      if cur = [] then pySplitAux rest []
      else cur.reverse :: pySplitAux rest []
    else pySplitAux rest (c :: cur)

/-- Python `text.split()`: split on runs of whitespace, discarding empty
pieces. -/
def pySplit (s : Str) : List Str := pySplitAux s []

/-- Python `text.strip()`: remove leading and trailing whitespace. -/
def strip (s : Str) : Str :=
  ((s.dropWhile pyIsSpace).reverse.dropWhile pyIsSpace).reverse

/-- The `for word in words` loop of `chunk_text` (src/solution.py lines
52-61): greedily extend `current_chunk`, flushing `current_chunk.strip()`
whenever appending the next word would reach `max_chars`, and flushing the
final buffer after the loop. -/
def chunkLoop (max_chars : Nat) : List Str → Str → List Str
  | [], current => if strip current = [] then [] else [strip current]
  | w :: ws, current =>
    if (current ++ w).length < max_chars then
      chunkLoop max_chars ws (current ++ w ++ [' '])
    else
      (if strip current = [] then [] else [strip current]) ++
        chunkLoop max_chars ws (w ++ [' '])

/-- `chunk_text` (src/solution.py lines 43-62). The Python default
`max_chars=6000` is passed explicitly at the call site in
`process_all_chapters`. -/
def chunk_text (text : Str) (max_chars : Nat) : List Str :=
  if strip text = [] then [] else chunkLoop max_chars (pySplit text) []

/-! ## Word-level view of the chunker (proof scaffolding) -/

/-- The raw buffer built by the chunk loop: each accumulated word followed
by one space. -/
def joinT (ws : List Str) : Str := (ws.map (fun w => w ++ [' '])).flatten

/-- Words joined by single spaces, with no trailing space: the text of an
emitted chunk. -/
def spaceSep : List Str → Str
  | [] => []
  | w :: rest => w ++ (rest.map (fun v => ' ' :: v)).flatten

/-- `chunkLoop` replayed on lists of words instead of raw buffers. -/
def chunkWordsLoop (max_chars : Nat) : List Str → List Str → List (List Str)
  | [], acc => if acc = [] then [] else [acc]
  | w :: ws, acc =>
    if (joinT acc ++ w).length < max_chars then
      chunkWordsLoop max_chars ws (acc ++ [w])
    else
      (if acc = [] then [] else [acc]) ++ chunkWordsLoop max_chars ws [w]

/-- A word produced by `pySplit`: non-empty and whitespace-free. -/
def goodW (w : Str) : Prop := w ≠ [] ∧ ∀ c ∈ w, pyIsSpace c = false

theorem pySplitAux_good (s : Str) :
    ∀ cur, (∀ c ∈ cur, pyIsSpace c = false) →
      ∀ w ∈ pySplitAux s cur, goodW w := by
  induction s with
  | nil =>
    intro cur hcur w hw
    by_cases hc : cur = []
    · simp [pySplitAux, hc] at hw
    · simp only [pySplitAux, if_neg hc, List.mem_singleton] at hw
      subst hw
      refine ⟨by simpa using hc, ?_⟩
      intro c hcmem
      exact hcur c (List.mem_reverse.mp hcmem)
  | cons c rest ih =>
    intro cur hcur w hw
    by_cases hsp : pyIsSpace c
    · by_cases hc : cur = []
      · simp only [pySplitAux, hsp, if_true, hc, if_pos rfl] at hw
        exact ih [] (by simp) w hw
      · simp only [pySplitAux, hsp, if_true, if_neg hc, List.mem_cons] at hw
        rcases hw with hw | hw
        · subst hw
          refine ⟨by simpa using hc, ?_⟩
          intro d hd
          exact hcur d (List.mem_reverse.mp hd)
        · exact ih [] (by simp) w hw
    · simp only [pySplitAux, hsp] at hw
      refine ih (c :: cur) ?_ w hw
      intro d hd
      rcases List.mem_cons.mp hd with hd | hd
      · subst hd; simpa using hsp
      · exact hcur d hd

theorem pySplit_good (s : Str) : ∀ w ∈ pySplit s, goodW w :=
  pySplitAux_good s [] (by simp)

theorem spaceSep_cons_cons (w v : Str) (rest : List Str) :
    spaceSep (w :: v :: rest) = w ++ ' ' :: spaceSep (v :: rest) := by
  simp [spaceSep]

theorem spaceSep_singleton (w : Str) : spaceSep [w] = w := by
  simp [spaceSep]

theorem joinT_nil : joinT [] = [] := rfl

theorem joinT_cons (w : Str) (ws : List Str) :
    joinT (w :: ws) = w ++ ' ' :: joinT ws := by
  simp [joinT]

theorem joinT_append_single (acc : List Str) (w : Str) :
    joinT (acc ++ [w]) = joinT acc ++ w ++ [' '] := by
  simp [joinT]

theorem joinT_eq_spaceSep_append (ws : List Str) (h : ws ≠ []) :
    joinT ws = spaceSep ws ++ [' '] := by
  induction ws with
  | nil => exact absurd rfl h
  | cons w rest ih =>
    cases rest with
    | nil => simp [joinT, spaceSep]
    | cons v rest2 =>
      rw [joinT_cons, ih (by simp), spaceSep_cons_cons]
      simp

theorem spaceSep_head (w : Str) (rest : List Str) (hw : w ≠ []) :
    ∃ c t, spaceSep (w :: rest) = c :: t ∧ c ∈ w := by
  obtain ⟨c, w', rfl⟩ := List.exists_cons_of_ne_nil hw
  cases rest with
  | nil => exact ⟨c, w', by simp [spaceSep], by simp⟩
  | cons v rest2 =>
    rw [spaceSep_cons_cons]
    exact ⟨c, w' ++ ' ' :: spaceSep (v :: rest2), by simp, by simp⟩

theorem spaceSep_last (ws : List Str) (h : ws ≠ [])
    (hg : ∀ w ∈ ws, goodW w) :
    ∃ c t, (spaceSep ws).reverse = c :: t ∧ pyIsSpace c = false := by
  induction ws with
  | nil => exact absurd rfl h
  | cons w rest ih =>
    cases rest with
    | nil =>
      have hw := hg w (by simp)
      obtain ⟨c, t, hct⟩ := List.exists_cons_of_ne_nil
        (fun hrev => hw.1 (by simpa using congrArg List.reverse hrev) :
          w.reverse ≠ [])
      refine ⟨c, t, by simpa [spaceSep_singleton] using hct, ?_⟩
      have : c ∈ w := by
        rw [← List.mem_reverse, hct]; simp
      exact hw.2 c this
    | cons v rest2 =>
      obtain ⟨c, t, hct, hc⟩ := ih (by simp)
        (fun u hu => hg u (List.mem_cons_of_mem w hu))
      refine ⟨c, t ++ ' ' :: w.reverse, ?_, hc⟩
      rw [spaceSep_cons_cons]
      simp [hct]

theorem spaceSep_ne_nil (ws : List Str) (h : ws ≠ [])
    (hg : ∀ w ∈ ws, goodW w) : spaceSep ws ≠ [] := by
  obtain ⟨w, rest, rfl⟩ := List.exists_cons_of_ne_nil h
  obtain ⟨c, t, hct, _⟩ := spaceSep_head w rest (hg w (by simp)).1
  simp [hct]

theorem dropWhile_of_head_false (c : Char) (t : Str) (h : pyIsSpace c = false) :
    (c :: t).dropWhile pyIsSpace = c :: t := by
  simp [List.dropWhile_cons, h]

theorem strip_spaceSep_space (ws : List Str) (h : ws ≠ [])
    (hg : ∀ w ∈ ws, goodW w) :
    strip (spaceSep ws ++ [' ']) = spaceSep ws := by
  obtain ⟨w, rest, rfl⟩ := List.exists_cons_of_ne_nil h
  obtain ⟨c, t, hct1, hcw⟩ := spaceSep_head w rest (hg w (by simp)).1
  have hc : pyIsSpace c = false := (hg w (by simp)).2 c hcw
  obtain ⟨d, u, hdu, hd⟩ := spaceSep_last (w :: rest) (by simp) hg
  unfold strip
  rw [hct1]
  rw [show (c :: t) ++ [' '] = c :: (t ++ [' ']) from rfl]
  rw [dropWhile_of_head_false c (t ++ [' ']) hc]
  rw [show c :: (t ++ [' ']) = (c :: t) ++ [' '] from rfl, ← hct1]
  rw [List.reverse_append]
  simp only [List.reverse_singleton, List.singleton_append]
  rw [List.dropWhile_cons]
  simp only [show pyIsSpace ' ' = true from rfl, if_true]
  rw [hdu, dropWhile_of_head_false d u hd, ← hdu]
  simp

theorem strip_joinT (ws : List Str) (hg : ∀ w ∈ ws, goodW w) :
    strip (joinT ws) = spaceSep ws := by
  cases h : ws with
  | nil => rfl
  | cons w rest =>
    rw [← h, joinT_eq_spaceSep_append ws (by simp [h])]
    exact strip_spaceSep_space ws (by simp [h]) hg

theorem chunkLoop_eq_words (m : Nat) :
    ∀ ws acc, (∀ w ∈ ws, goodW w) → (∀ w ∈ acc, goodW w) →
      chunkLoop m ws (joinT acc) = (chunkWordsLoop m ws acc).map spaceSep := by
  intro ws
  induction ws with
  | nil =>
    intro acc _ hacc
    simp only [chunkLoop, chunkWordsLoop]
    rw [strip_joinT acc hacc]
    by_cases h : acc = []
    · subst h; simp [spaceSep]
    · rw [if_neg (spaceSep_ne_nil acc h hacc), if_neg h]
      simp
  | cons w ws ih =>
    intro acc hws hacc
    have hw : goodW w := hws w (by simp)
    have hws' : ∀ u ∈ ws, goodW u := fun u hu => hws u (by simp [hu])
    simp only [chunkLoop, chunkWordsLoop]
    by_cases hlt : (joinT acc ++ w).length < m
    · rw [if_pos hlt, if_pos hlt]
      have : joinT acc ++ w ++ [' '] = joinT (acc ++ [w]) := by
        rw [joinT_append_single]
      rw [this]
      refine ih (acc ++ [w]) hws' ?_
      intro u hu
      rcases List.mem_append.mp hu with hu | hu
      · exact hacc u hu
      · rw [List.mem_singleton.mp hu]; exact hw
    · rw [if_neg hlt, if_neg hlt]
      rw [strip_joinT acc hacc]
      have hrec : chunkLoop m ws (w ++ [' ']) =
          (chunkWordsLoop m ws [w]).map spaceSep := by
        have : w ++ [' '] = joinT [w] := by simp [joinT]
        rw [this]
        refine ih [w] hws' ?_
        intro u hu
        rw [List.mem_singleton.mp hu]; exact hw
      by_cases h : acc = []
      · subst h
        simp only [spaceSep, if_pos rfl]
        simpa using hrec
      · rw [if_neg (spaceSep_ne_nil acc h hacc), if_neg h]
        simp [hrec]

theorem chunkWordsLoop_flatten (m : Nat) :
    ∀ ws acc, (chunkWordsLoop m ws acc).flatten = acc ++ ws := by
  intro ws
  induction ws with
  | nil =>
    intro acc
    by_cases h : acc = [] <;> simp [chunkWordsLoop, h]
  | cons w ws ih =>
    intro acc
    simp only [chunkWordsLoop]
    by_cases hlt : (joinT acc ++ w).length < m
    · rw [if_pos hlt, ih (acc ++ [w])]
      simp
    · rw [if_neg hlt]
      by_cases h : acc = []
      · subst h; simp [ih [w]]
      · rw [if_neg h]
        simp [ih [w]]

theorem chunkWordsLoop_mem (m : Nat) :
    ∀ ws acc g, g ∈ chunkWordsLoop m ws acc →
      g ≠ [] ∧ ∀ x ∈ g, x ∈ acc ∨ x ∈ ws := by
  intro ws
  induction ws with
  | nil =>
    intro acc g hg
    by_cases h : acc = []
    · simp [chunkWordsLoop, h] at hg
    · simp only [chunkWordsLoop, if_neg h, List.mem_singleton] at hg
      subst hg
      exact ⟨h, fun x hx => Or.inl hx⟩
  | cons w ws ih =>
    intro acc g hg
    simp only [chunkWordsLoop] at hg
    by_cases hlt : (joinT acc ++ w).length < m
    · rw [if_pos hlt] at hg
      obtain ⟨hne, hmem⟩ := ih (acc ++ [w]) g hg
      refine ⟨hne, fun x hx => ?_⟩
      rcases hmem x hx with hx' | hx'
      · rcases List.mem_append.mp hx' with hx'' | hx''
        · exact Or.inl hx''
        · exact Or.inr (by simp [List.mem_singleton.mp hx''])
      · exact Or.inr (by simp [hx'])
    · rw [if_neg hlt] at hg
      rcases List.mem_append.mp hg with hg' | hg'
      · by_cases h : acc = []
        · simp [h] at hg'
        · rw [if_neg h, List.mem_singleton] at hg'
          subst hg'
          exact ⟨h, fun x hx => Or.inl hx⟩
      · obtain ⟨hne, hmem⟩ := ih [w] g hg'
        refine ⟨hne, fun x hx => ?_⟩
        rcases hmem x hx with hx' | hx'
        · exact Or.inr (by simp [List.mem_singleton.mp hx'])
        · exact Or.inr (by simp [hx'])

theorem pySplitAux_chars (w : Str) :
    ∀ s cur, (∀ c ∈ w, pyIsSpace c = false) →
      pySplitAux (w ++ s) cur = pySplitAux s (w.reverse ++ cur) := by
  induction w with
  | nil => intro s cur _; simp
  | cons c w' ih =>
    intro s cur hw
    have hc : pyIsSpace c = false := hw c (by simp)
    have hstep : pySplitAux ((c :: w') ++ s) cur = pySplitAux (w' ++ s) (c :: cur) := by
      simp [pySplitAux, hc]
    rw [hstep, ih s (c :: cur) (fun d hd => hw d (by simp [hd]))]
    simp

theorem pySplit_spaceSep (ws : List Str) (hg : ∀ w ∈ ws, goodW w) :
    pySplit (spaceSep ws) = ws := by
  induction ws with
  | nil => rfl
  | cons w rest ih =>
    have hw := hg w (by simp)
    cases rest with
    | nil =>
      rw [spaceSep_singleton]
      unfold pySplit
      rw [show (w : Str) = w ++ [] from (List.append_nil w).symm,
        pySplitAux_chars w [] [] hw.2]
      simp [pySplitAux, hw.1]
    | cons v rest2 =>
      rw [spaceSep_cons_cons]
      unfold pySplit
      rw [show w ++ ' ' :: spaceSep (v :: rest2) =
        w ++ (' ' :: spaceSep (v :: rest2)) from rfl]
      rw [pySplitAux_chars w (' ' :: spaceSep (v :: rest2)) [] hw.2]
      have hrev : w.reverse ++ ([] : Str) ≠ [] := by simpa using hw.1
      simp only [pySplitAux, show pyIsSpace ' ' = true from rfl, if_true,
        if_neg hrev]
      rw [show (pySplitAux (spaceSep (v :: rest2)) [] : List Str) =
        pySplit (spaceSep (v :: rest2)) from rfl]
      rw [ih (fun u hu => hg u (List.mem_cons_of_mem w hu))]
      simp [hw.1]

theorem strip_eq_nil_all_space (s : Str) (h : strip s = []) :
    ∀ c ∈ s, pyIsSpace c = true := by
  unfold strip at h
  have h1 : (s.dropWhile pyIsSpace).reverse.dropWhile pyIsSpace = [] := by
    simpa using congrArg List.reverse h
  have h2 : ∀ c ∈ (s.dropWhile pyIsSpace).reverse, pyIsSpace c = true :=
    List.dropWhile_eq_nil_iff.mp h1
  have h3 : ∀ c ∈ s.dropWhile pyIsSpace, pyIsSpace c = true := by
    intro c hc; exact h2 c (List.mem_reverse.mpr hc)
  intro c hc
  rw [← List.takeWhile_append_dropWhile (p := pyIsSpace) (l := s)] at hc
  rcases List.mem_append.mp hc with hc' | hc'
  · exact List.mem_takeWhile_imp hc'
  · exact h3 c hc'

theorem pySplitAux_all_space (s : Str) (h : ∀ c ∈ s, pyIsSpace c = true) :
    pySplitAux s [] = [] := by
  induction s with
  | nil => rfl
  | cons c rest ih =>
    have hc := h c (by simp)
    simp only [pySplitAux, hc, if_true, if_pos rfl]
    exact ih (fun d hd => h d (by simp [hd]))

theorem pySplit_eq_nil_of_strip (text : Str) (h : strip text = []) :
    pySplit text = [] :=
  pySplitAux_all_space text (strip_eq_nil_all_space text h)

/-- Claim C2: the chunks' whitespace-token sequences concatenate, in order,
to the input's whitespace-token sequence, and an empty or whitespace-only
text yields no chunks. -/
theorem claim_C2 (text : Str) (max_chars : Nat) :
    ((chunk_text text max_chars).map pySplit).flatten = pySplit text ∧
    (strip text = [] → chunk_text text max_chars = []) := by
  constructor
  · by_cases h : strip text = []
    · rw [chunk_text, if_pos h, pySplit_eq_nil_of_strip text h]
      simp
    · rw [chunk_text, if_neg h]
      have hgood := pySplit_good text
      have hrw : chunkLoop max_chars (pySplit text) [] =
          (chunkWordsLoop max_chars (pySplit text) []).map spaceSep := by
        have := chunkLoop_eq_words max_chars (pySplit text) [] hgood (by simp)
        simpa [joinT] using this
      rw [hrw, List.map_map]
      have hcongr : ∀ g ∈ chunkWordsLoop max_chars (pySplit text) [],
          (pySplit ∘ spaceSep) g = id g := by
        intro g hgmem
        obtain ⟨_, hmem⟩ := chunkWordsLoop_mem max_chars (pySplit text) [] g hgmem
        have : ∀ w ∈ g, goodW w := by
          intro w hwg
          rcases hmem w hwg with h' | h'
          · simp at h'
          · exact hgood w h'
        simp [Function.comp, pySplit_spaceSep g this]
      rw [List.map_congr_left hcongr, List.map_id,
        chunkWordsLoop_flatten max_chars (pySplit text) []]
      simp
  · intro h
    rw [chunk_text, if_pos h]

theorem claim_C2_witness :
    ((chunk_text (toStr " one two  three ") 9).map pySplit).flatten =
      pySplit (toStr " one two  three ") ∧
    (strip (toStr " one two  three ") = [] →
      chunk_text (toStr " one two  three ") 9 = []) :=
  claim_C2 (toStr " one two  three ") 9

/-! ## Chunk size bound (claim C3) -/

theorem spaceSep_length_append_single (acc : List Str) (w : Str) :
    (spaceSep (acc ++ [w])).length = (joinT acc ++ w).length := by
  have h1 : joinT (acc ++ [w]) = spaceSep (acc ++ [w]) ++ [' '] :=
    joinT_eq_spaceSep_append (acc ++ [w]) (by simp)
  have h2 : joinT (acc ++ [w]) = joinT acc ++ w ++ [' '] :=
    joinT_append_single acc w
  have := congrArg List.length (h1.symm.trans h2)
  simp only [List.length_append, List.length_singleton] at this
  simp only [List.length_append]
  omega

/-- Size invariant carried by the chunk loop's buffer. -/
def bufOK (m : Nat) (acc : List Str) : Prop :=
  acc = [] ∨ (spaceSep acc).length < m ∨ ∃ w, acc = [w]

theorem chunkWordsLoop_size (m : Nat) :
    ∀ ws acc, bufOK m acc → ∀ g ∈ chunkWordsLoop m ws acc,
      (spaceSep g).length < m ∨ ∃ w, g = [w] := by
  intro ws
  induction ws with
  | nil =>
    intro acc hacc g hg
    by_cases h : acc = []
    · simp [chunkWordsLoop, h] at hg
    · simp only [chunkWordsLoop, if_neg h, List.mem_singleton] at hg
      subst hg
      rcases hacc with h' | h' | h'
      · exact absurd h' h
      · exact Or.inl h'
      · exact Or.inr h'
  | cons w ws ih =>
    intro acc hacc g hg
    simp only [chunkWordsLoop] at hg
    by_cases hlt : (joinT acc ++ w).length < m
    · rw [if_pos hlt] at hg
      refine ih (acc ++ [w]) ?_ g hg
      refine Or.inr (Or.inl ?_)
      rw [spaceSep_length_append_single acc w]
      exact hlt
    · rw [if_neg hlt] at hg
      rcases List.mem_append.mp hg with hg' | hg'
      · by_cases h : acc = []
        · simp [h] at hg'
        · rw [if_neg h, List.mem_singleton] at hg'
          subst hg'
          rcases hacc with h' | h' | h'
          · exact absurd h' h
          · exact Or.inl h'
          · exact Or.inr h'
      · exact ih [w] (Or.inr (Or.inr ⟨w, rfl⟩)) g hg'

/-- Claim C3: every chunk is at most `max_chars` long, except possibly a
chunk that is a single input token (passed through verbatim) of length at
least `max_chars`. -/
theorem claim_C3 (text : Str) (max_chars : Nat) (c : Str)
    (h : c ∈ chunk_text text max_chars) :
    c.length ≤ max_chars ∨
      (c ∈ pySplit text ∧ max_chars ≤ c.length) := by
  by_cases hstrip : strip text = []
  · rw [chunk_text, if_pos hstrip] at h
    simp at h
  · rw [chunk_text, if_neg hstrip] at h
    have hgood := pySplit_good text
    have hrw : chunkLoop max_chars (pySplit text) [] =
        (chunkWordsLoop max_chars (pySplit text) []).map spaceSep := by
      have := chunkLoop_eq_words max_chars (pySplit text) [] hgood (by simp)
      simpa [joinT] using this
    rw [hrw] at h
    obtain ⟨g, hgmem, rfl⟩ := List.mem_map.mp h
    rcases chunkWordsLoop_size max_chars (pySplit text) [] (Or.inl rfl) g hgmem
      with hlt | ⟨w, rfl⟩
    · exact Or.inl (Nat.le_of_lt hlt)
    · obtain ⟨_, hmem⟩ := chunkWordsLoop_mem max_chars (pySplit text) [] [w] hgmem
      have hw : w ∈ pySplit text := by
        rcases hmem w (by simp) with h' | h'
        · simp at h'
        · exact h'
      rw [spaceSep_singleton]
      rcases Nat.le_total w.length max_chars with h' | h'
      · exact Or.inl h'
      · exact Or.inr ⟨hw, h'⟩

theorem claim_C3_witness :
    toStr "aaaa" ∈ chunk_text (toStr "aaaa bb") 3 ∧
      ((toStr "aaaa").length ≤ 3 ∨
        (toStr "aaaa" ∈ pySplit (toStr "aaaa bb") ∧
          3 ≤ (toStr "aaaa").length)) :=
  ⟨by decide, claim_C3 (toStr "aaaa bb") 3 (toStr "aaaa") (by decide)⟩

/-! ## Chunks as slices (claim C6) -/

/-- The claim's notion of "occurs as a substring": some contiguous slice of
`hay` equals `needle`. -/
def isSubstring (needle hay : Str) : Bool :=
  (List.range (hay.length + 1)).any
    (fun i => (hay.drop i).take needle.length == needle)

/-- Counterexample to claim C6 as stated: the chunker rejoins tokens with
single spaces, so the chunk of `"a\nb"` is `"a b"`, which does not occur as
a substring of the original text. -/
theorem claim_C6_counterexample :
    chunk_text (toStr "a\nb") 10 = [toStr "a b"] ∧
      isSubstring (toStr "a b") (toStr "a\nb") = false :=
  ⟨rfl, rfl⟩

/-- Claim C6 as amended: each chunk is an ordered, contiguous slice of the
input at the token level — its token sequence is a contiguous infix of the
input's token sequence — and its text is exactly those tokens rejoined with
single spaces (not necessarily a literal substring of the input). -/
theorem claim_C6 (text : Str) (max_chars : Nat) (c : Str)
    (h : c ∈ chunk_text text max_chars) :
    (∃ pre post, pySplit text = pre ++ pySplit c ++ post) ∧
      c = spaceSep (pySplit c) := by
  by_cases hstrip : strip text = []
  · rw [chunk_text, if_pos hstrip] at h
    simp at h
  · rw [chunk_text, if_neg hstrip] at h
    have hgood := pySplit_good text
    have hrw : chunkLoop max_chars (pySplit text) [] =
        (chunkWordsLoop max_chars (pySplit text) []).map spaceSep := by
      have := chunkLoop_eq_words max_chars (pySplit text) [] hgood (by simp)
      simpa [joinT] using this
    rw [hrw] at h
    obtain ⟨g, hgmem, rfl⟩ := List.mem_map.mp h
    obtain ⟨_, hmem⟩ := chunkWordsLoop_mem max_chars (pySplit text) [] g hgmem
    have hggood : ∀ w ∈ g, goodW w := by
      intro w hwg
      rcases hmem w hwg with h' | h'
      · simp at h'
      · exact hgood w h'
    have hsplit : pySplit (spaceSep g) = g := pySplit_spaceSep g hggood
    constructor
    · obtain ⟨A, B, hAB⟩ := List.append_of_mem hgmem
      refine ⟨A.flatten, B.flatten, ?_⟩
      have hfl := chunkWordsLoop_flatten max_chars (pySplit text) []
      rw [hAB] at hfl
      simp only [List.flatten_append, List.flatten_cons, List.nil_append] at hfl
      rw [hsplit, ← hfl]
      simp
    · rw [hsplit]

theorem claim_C6_witness :
    (∃ pre post, pySplit (toStr "a\nb") =
      pre ++ pySplit (toStr "a b") ++ post) ∧
      toStr "a b" = spaceSep (pySplit (toStr "a b")) :=
  claim_C6 (toStr "a\nb") 10 (toStr "a b") (by decide)

/-! ## The JSON value model

Python's `json` module is modelled by an executable parser and printer over
`Json`. Objects are association lists in document order; the pipeline only
ever builds or reads objects with distinct keys, matching Python dicts.
Numbers are modelled as integers: floating-point literals are outside the
shallow embedding and the model's parser rejects them. -/

inductive Json where
  | null
  | bool (b : Bool)
  | num (n : Int)
  | str (s : Str)
  | arr (elems : List Json)
  | obj (fields : List (Str × Json))

/-- Python truthiness of a parsed JSON value (`if extracted:` and
`if response and response.text:` in the source): `None`, `False`, `0`,
`""`, `[]` and `{}` are falsy. -/
def Json.truthy : Json → Bool
  | .null => false
  | .bool b => b
  | .num n => n != 0
  | .str s => !s.isEmpty
  | .arr l => !l.isEmpty
  | .obj l => !l.isEmpty

/-- Python `dict.get(key, default)` on an object's field list (first match;
the pipeline's dicts have distinct keys). -/
def dictGet : List (Str × Json) → Str → Json → Json
  | [], _, default => default
  | (k, v) :: rest, key, default =>
    if k = key then v else dictGet rest key default

/-! ## Serialisation (`json.dumps`, compact form) -/

def digitChar : Nat → Char
  | 0 => '0'
  | 1 => '1'
  | 2 => '2'
  | 3 => '3'
  | 4 => '4'
  | 5 => '5'
  | 6 => '6'
  | 7 => '7'
  | 8 => '8'
  | _ => '9'

/-- Decimal digits of `n`, most significant first; the first argument is
fuel (any value above `n` suffices). -/
def natDigitsF : Nat → Nat → Str
  | 0, _ => []
  | f + 1, n =>
    if n < 10 then [digitChar n]
    else natDigitsF f (n / 10) ++ [digitChar (n % 10)]

def natToStr (n : Nat) : Str := natDigitsF (n + 1) n

def intToStr (n : Int) : Str :=
  if n < 0 then '-' :: natToStr n.natAbs else natToStr n.toNat

def hexDigitChar : Nat → Char
  | 0 => '0'
  | 1 => '1'
  | 2 => '2'
  | 3 => '3'
  | 4 => '4'
  | 5 => '5'
  | 6 => '6'
  | 7 => '7'
  | 8 => '8'
  | 9 => '9'
  | 10 => 'a'
  | 11 => 'b'
  | 12 => 'c'
  | 13 => 'd'
  | 14 => 'e'
  | _ => 'f'

/-- JSON string escaping of one character (as `json.dumps` does, except
that characters above `0x7e` are left raw rather than `\u`-escaped, which
round-trips identically through `json.loads`). -/
def escChar (c : Char) : Str :=
  if c = '"' then ['\\', '"']
  else if c = '\\' then ['\\', '\\']
  else if c = '\n' then ['\\', 'n']
  else if c = '\t' then ['\\', 't']
  else if c = '\r' then ['\\', 'r']
  else if c = '\x08' then ['\\', 'b']
  else if c = '\x0c' then ['\\', 'f']
  else if c.toNat < 32 then
    ['\\', 'u', '0', '0', hexDigitChar (c.toNat / 16), hexDigitChar (c.toNat % 16)]
  else [c]

def dumpStrBody (s : Str) : Str := (s.map escChar).flatten

def dumpStr (s : Str) : Str := '"' :: dumpStrBody s ++ ['"']

mutual

/-- Compact `json.dumps` (default separators `", "` and `": "`). -/
def dumps : Json → Str
  | .null => toStr "null"
  | .bool true => toStr "true"
  | .bool false => toStr "false"
  | .num n => intToStr n
  | .str s => dumpStr s
  | .arr [] => ['[', ']']
  | .arr (v :: vs) => '[' :: (dumps v ++ dumpsItems vs) ++ [']']
  | .obj [] => ['{', '}']
  | .obj (m :: ms) => '{' :: (dumpsMember m ++ dumpsMembers ms) ++ ['}']

/-- The remaining elements of an array, each preceded by `", "`. -/
def dumpsItems : List Json → Str
  | [] => []
  | v :: vs => ',' :: ' ' :: dumps v ++ dumpsItems vs

/-- One object member, `"key": value`. -/
def dumpsMember : Str × Json → Str
  | (k, v) => dumpStr k ++ ':' :: ' ' :: dumps v

/-- The remaining members of an object, each preceded by `", "`. -/
def dumpsMembers : List (Str × Json) → Str
  | [] => []
  | m :: ms => ',' :: ' ' :: dumpsMember m ++ dumpsMembers ms

end

/-! ## Parsing (`json.loads`, strict mode) -/

def jsonWS (c : Char) : Bool := c = ' ' || c = '\t' || c = '\n' || c = '\r'

def skipWS (s : Str) : Str := s.dropWhile jsonWS

def isDigit (c : Char) : Bool := 48 ≤ c.toNat && c.toNat ≤ 57

def digitsToNat (ds : Str) : Nat := ds.foldl (fun acc c => acc * 10 + (c.toNat - 48)) 0

/-- Parse a JSON unsigned-integer literal: at least one digit, no redundant
leading zero, and not followed by `.`, `e` or `E` (which would make it a
float, outside this model). -/
def parseNat (s : Str) : Option (Nat × Str) :=
  let ds := s.takeWhile isDigit
  let rest := s.dropWhile isDigit
  if ds = [] then none
  else if 1 < ds.length ∧ ds.head? = some '0' then none
  else
    match rest with
    | c :: _ =>
      if c = '.' || c = 'e' || c = 'E' then none else some (digitsToNat ds, rest)
    | [] => some (digitsToNat ds, rest)

def hexVal (c : Char) : Option Nat :=
  if 48 ≤ c.toNat ∧ c.toNat ≤ 57 then some (c.toNat - 48)
  else if 97 ≤ c.toNat ∧ c.toNat ≤ 102 then some (c.toNat - 87)
  else if 65 ≤ c.toNat ∧ c.toNat ≤ 70 then some (c.toNat - 55)
  else none

def escDecode (c : Char) : Option Char :=
  if c = '"' then some '"'
  else if c = '\\' then some '\\'
  else if c = '/' then some '/'
  else if c = 'b' then some '\x08'
  else if c = 'f' then some '\x0c'
  else if c = 'n' then some '\n'
  else if c = 'r' then some '\r'
  else if c = 't' then some '\t'
  else none

mutual

/-- Parse a JSON string body after the opening quote, up to and including
the closing quote. Strict mode: raw control characters and unknown escapes
are rejected, as `json.loads` does. -/
def parseStrBody : Str → Option (Str × Str)
  | [] => none
  | c :: rest =>
    if c = '"' then some ([], rest)
    else if c = '\\' then parseEscSeq rest
    else if c.toNat < 32 then none
    else
      match parseStrBody rest with
      | some (t, r) => some (c :: t, r)
      | none => none

/-- The escape sequence after a backslash. -/
def parseEscSeq : Str → Option (Str × Str)
  | [] => none
  | e :: rest2 =>
    if e = 'u' then parseHexSeq rest2
    else
      match escDecode e with
      | some d =>
        match parseStrBody rest2 with
        | some (t, r) => some (d :: t, r)
        | none => none
      | none => none

/-- The four hex digits of a `\u` escape. -/
def parseHexSeq : Str → Option (Str × Str)
  | h1 :: h2 :: h3 :: h4 :: rest3 =>
    match hexVal h1, hexVal h2, hexVal h3, hexVal h4 with
    | some a, some b, some c2, some d =>
      match parseStrBody rest3 with
      | some (t, r) =>
        some (Char.ofNat (((a * 16 + b) * 16 + c2) * 16 + d) :: t, r)
      | none => none
    | _, _, _, _ => none
  | _ => none

end

/-- The tail of the literal `true` after its first character. -/
def parseTrueLit : Str → Option (Json × Str)
  | 'r' :: 'u' :: 'e' :: r => some (.bool true, r)
  | _ => none

/-- The tail of the literal `false` after its first character. -/
def parseFalseLit : Str → Option (Json × Str)
  | 'a' :: 'l' :: 's' :: 'e' :: r => some (.bool false, r)
  | _ => none

/-- The tail of the literal `null` after its first character. -/
def parseNullLit : Str → Option (Json × Str)
  | 'u' :: 'l' :: 'l' :: r => some (.null, r)
  | _ => none

/-- The three states of the recursive-descent scanner: a value, the elements
of an array after the first position, or the members of an object. -/
inductive PMode where
  | val
  | items
  | members

/-- Recursive-descent JSON scanner with fuel (the fuel only bounds the
recursion; `json_loads` supplies one unit more than the input length, which
is always enough). Mirrors Python's strict `json.loads` grammar, except
that floats are rejected. -/
def parseF : Nat → PMode → Str → Option (Json × Str)
  | 0, _, _ => none
  | f + 1, PMode.val, s =>
    match s with
    | [] => none
    | c :: rest =>
      if c = '{' then
        match skipWS rest with
        | d :: rest2 =>
          if d = '}' then some (.obj [], rest2)
          else parseF f PMode.members (d :: rest2)
        | [] => none
      else if c = '[' then
        match skipWS rest with
        | d :: rest2 =>
          if d = ']' then some (.arr [], rest2)
          else parseF f PMode.items (d :: rest2)
        | [] => none
      else if c = '"' then
        match parseStrBody rest with
        | some (t, r) => some (.str t, r)
        | none => none
      else if c = 't' then parseTrueLit rest
      else if c = 'f' then parseFalseLit rest
      else if c = 'n' then parseNullLit rest
      else if c = '-' then
        match parseNat rest with
        | some (n, r) => some (.num (-(n : Int)), r)
        | none => none
      else if isDigit c then
        match parseNat (c :: rest) with
        | some (n, r) => some (.num (n : Int), r)
        | none => none
      else none
  | f + 1, PMode.items, s =>
    match parseF f PMode.val s with
    | some (v, r1) =>
      match skipWS r1 with
      | c :: r2 =>
        if c = ']' then some (.arr [v], r2)
        else if c = ',' then
          match parseF f PMode.items (skipWS r2) with
          | some (.arr vs, r3) => some (.arr (v :: vs), r3)
          | _ => none
        else none
      | [] => none
    | none => none
  | f + 1, PMode.members, s =>
    match s with
    | c :: rest =>
      if c = '"' then
        match parseStrBody rest with
        | some (k, r1) =>
          match skipWS r1 with
          | d :: r2 =>
            if d = ':' then
              match parseF f PMode.val (skipWS r2) with
              | some (v, r3) =>
                match skipWS r3 with
                | e :: r4 =>
                  if e = '}' then some (.obj [(k, v)], r4)
                  else if e = ',' then
                    match parseF f PMode.members (skipWS r4) with
                    | some (.obj ms, r5) => some (.obj ((k, v) :: ms), r5)
                    | _ => none
                  else none
                | [] => none
              | none => none
            else none
          | [] => none
        | none => none
      else none
    | [] => none

/-- Python `json.loads`: parse one value, then require only whitespace to
remain; any failure is `none` (an exception in Python). -/
def json_loads (s : Str) : Option Json :=
  match parseF ((skipWS s).length + 1) PMode.val (skipWS s) with
  | some (v, rest) => if skipWS rest = [] then some v else none
  | none => none

example : json_loads (toStr "\x7b\"a\": [1, -2], \"b\": null\x7d") =
    some (Json.obj [(toStr "a", Json.arr [Json.num 1, Json.num (-2)]),
      (toStr "b", Json.null)]) := rfl

example :
    dumps (Json.obj [(toStr "a", Json.arr [Json.num 1, Json.num (-2)]),
      (toStr "b", Json.null)]) =
    toStr "\x7b\"a\": [1, -2], \"b\": null\x7d" := rfl

example : json_loads (toStr "truex") = none := rfl

example : json_loads (toStr "042") = none := rfl

example : json_loads (toStr " \"a\\u00e9b\" ") = some (Json.str (toStr "aéb")) := rfl

/-! ## `clean_json_response` (src/solution.py lines 64-93) -/

/-- The backtick character. -/
def bt : Char := Char.ofNat 96

/-- Python `text.replace('``````', '')`: left-to-right removal of
non-overlapping runs of six backticks. -/
def replace6 : Str → Str
  | c1 :: c2 :: c3 :: c4 :: c5 :: c6 :: rest =>
    if c1 = bt && c2 = bt && c3 = bt && c4 = bt && c5 = bt && c6 = bt then
      replace6 rest
    else c1 :: replace6 (c2 :: c3 :: c4 :: c5 :: c6 :: rest)
  | c :: rest => c :: replace6 rest
  | [] => []

/-- Python `text.replace('```', '')`: left-to-right removal of
non-overlapping runs of three backticks. -/
def replace3 : Str → Str
  | c1 :: c2 :: c3 :: rest =>
    if c1 = bt && c2 = bt && c3 = bt then replace3 rest
    else c1 :: replace3 (c2 :: c3 :: rest)
  | c :: rest => c :: replace3 rest
  | [] => []

/-- Index of the first occurrence of `c` in `s`, if any. -/
def firstIdx (c : Char) : Str → Option Nat
  | [] => none
  | d :: rest => if d = c then some 0 else (firstIdx c rest).map (· + 1)

/-- Index of the last occurrence of `c` in `s`, if any. -/
def lastIdx (c : Char) (s : Str) : Option Nat :=
  (firstIdx c s.reverse).map (fun k => s.length - 1 - k)

/-- The single match of the greedy DOTALL pattern `oc.*cc` (as in
`re.findall(r'\{.*\}', text, re.DOTALL)`): from the first occurrence of the
opening character to the last occurrence of the closing one. A greedy
first match absorbs every later closing character, so `findall` returns at
most this one match. -/
def greedyMatch (oc cc : Char) (s : Str) : Option Str :=
  match firstIdx oc s, lastIdx cc s with
  | some i, some j => if i < j then some ((s.drop i).take (j - i + 1)) else none
  | _, _ => none

/-- `clean_json_response` (src/solution.py lines 64-93): reject an empty
response, strip backtick fences, then try strict JSON parsing of the
greedy brace match, the greedy bracket match, and finally the whole
stripped text. -/
def clean_json_response (response_text : Str) : Option Json :=
  if response_text = [] then none
  else
    let t := strip (replace3 (replace6 response_text))
    match (greedyMatch '{' '}' t).bind json_loads with
    | some v => some v
    | none =>
      match (greedyMatch '[' ']' t).bind json_loads with
      | some v => some v
      | none => json_loads (strip t)

example : clean_json_response
    (toStr "```json\n\x7b\"chapter_name\": \"Sound\", \"topics\": []\x7d\n```") =
    some (Json.obj [(toStr "chapter_name", Json.str (toStr "Sound")),
      (toStr "topics", Json.arr [])]) := rfl

example : clean_json_response (toStr "here is it \x7b\"a\": 1\x7d thanks") =
    some (Json.obj [(toStr "a", Json.num 1)]) := rfl

example : clean_json_response (toStr "not json at all") = none := rfl

/-- Claim C7: whenever neither the brace-delimited greedy match, nor the
bracket-delimited greedy match, nor the whole cleaned text parses as strict
JSON, `clean_json_response` returns failure (`none`); it is a total
function, so no input raises. -/
theorem claim_C7 (s : Str)
    (h1 : (greedyMatch '{' '}' (strip (replace3 (replace6 s)))).bind json_loads = none)
    (h2 : (greedyMatch '[' ']' (strip (replace3 (replace6 s)))).bind json_loads = none)
    (h3 : json_loads (strip (strip (replace3 (replace6 s)))) = none) :
    clean_json_response s = none := by
  unfold clean_json_response
  by_cases hs : s = []
  · rw [if_pos hs]
  · rw [if_neg hs]
    simp only [h1, h2, h3]

theorem claim_C7_witness : clean_json_response (toStr "not json at all") = none :=
  claim_C7 (toStr "not json at all") rfl rfl rfl

/-! ## The generation capability and the extraction transform -/

/-- Outcome of one `self.model.generate_content(...)` call: the call can
raise, return a falsy response object, or return a response carrying text
(an empty text is falsy, like a missing one). -/
inductive GenOutcome where
  | raises
  | noResp
  | resp (text : Str)

/-- The extraction instruction template (src/solution.py lines 98-127),
with the chunk truncated to 4000 characters and the caller's chapter name
interpolated. -/
def extraction_prompt (text_chunk chapter_name : Str) : Str :=
  toStr "\nExtract and structure content from this Class 8 NCERT Science chapter text. Return ONLY valid JSON, no explanations.\n\nText: "
    ++ text_chunk.take 4000
    ++ toStr "...\n\nRequired JSON format:\n\x7b\n  \"chapter_number\": \"detect from text\",\n  \"chapter_name\": \""
    ++ chapter_name
    ++ toStr "\",\n  \"topics\": [\n    \x7b\n      \"topic_name\": \"main heading from text\",\n      \"sub_topics\": [\n        \x7b\n          \"sub_topic_name\": \"sub heading\",\n          \"content\": [\n            \x7b\n              \"type\": \"paragraph\",\n              \"title_or_caption\": \"\",\n              \"data_or_text\": \"actual text content\"\n            \x7d\n          ]\n        \x7d\n      ]\n    \x7d\n  ]\n\x7d\n\nExtract topics, sub-topics, paragraphs, activities, images, tables, and questions as they appear. Return only the JSON structure.\n"

/-- `extract_content_with_prompt` (src/solution.py lines 96-136): one
generation call; an exception, a falsy response, or falsy response text all
yield `None`, otherwise the response text goes through
`clean_json_response`. -/
def extract_content_with_prompt (gen : Str → GenOutcome)
    (text_chunk chapter_name : Str) : Option Json :=
  match gen (extraction_prompt text_chunk chapter_name) with
  | .raises => none
  | .noResp => none
  | .resp t => if t = [] then none else clean_json_response t

/-- Claim C8: if the generation capability raises, returns no response, or
returns a response with no text, the extraction transform yields no
fragment (`none`); the embedding is a total function, so it does not itself
raise. -/
theorem claim_C8 (gen : Str → GenOutcome) (text_chunk chapter_name : Str)
    (h : gen (extraction_prompt text_chunk chapter_name) = GenOutcome.raises
      ∨ gen (extraction_prompt text_chunk chapter_name) = GenOutcome.noResp
      ∨ gen (extraction_prompt text_chunk chapter_name) = GenOutcome.resp []) :
    extract_content_with_prompt gen text_chunk chapter_name = none := by
  unfold extract_content_with_prompt
  rcases h with h | h | h <;> rw [h]
  rfl

theorem claim_C8_witness :
    extract_content_with_prompt (fun _ => GenOutcome.raises)
      (toStr "some chunk") (toStr "Sound") = none :=
  claim_C8 (fun _ => GenOutcome.raises) (toStr "some chunk") (toStr "Sound")
    (Or.inl rfl)

/-! ## The orchestrator (`process_all_chapters`, src/solution.py 178-205) -/

/-- The inner `for j, chunk in enumerate(chunks)` loop: append each truthy
extraction result to the running aggregate. -/
def processChunksAcc (gen : Str → GenOutcome) (chapter_name : Str) :
    List Str → List Json → List Json
  | [], acc => acc
  | c :: cs, acc =>
    match extract_content_with_prompt gen c chapter_name with
    | some v =>
      if v.truthy then processChunksAcc gen chapter_name cs (acc ++ [v])
      else processChunksAcc gen chapter_name cs acc
    | none => processChunksAcc gen chapter_name cs acc

/-- The outer source loop: fetch text (external collaborator `fetch`), skip
whitespace-only sources, chunk with the default budget 6000, and process
each chunk. -/
def processSourcesAcc (fetch : Str → Str) (gen : Str → GenOutcome) :
    List (Str × Str) → List Json → List Json
  | [], acc => acc
  | (url, name) :: rest, acc =>
    if strip (fetch url) = [] then processSourcesAcc fetch gen rest acc
    else
      processSourcesAcc fetch gen rest
        (processChunksAcc gen name (chunk_text (fetch url) 6000) acc)

/-- `process_all_chapters` over zipped urls and chapter names. -/
def process_all_chapters (fetch : Str → Str) (gen : Str → GenOutcome)
    (pdf_urls chapter_names : List Str) : List Json :=
  processSourcesAcc fetch gen (pdf_urls.zip chapter_names) []

/-- Specification-side view: the fragments a chunk list contributes — one
entry per chunk whose extraction returned a truthy value. -/
def successFragments (gen : Str → GenOutcome) (chapter_name : Str)
    (chunks : List Str) : List Json :=
  chunks.filterMap fun c =>
    match extract_content_with_prompt gen c chapter_name with
    | some v => if v.truthy then some v else none
    | none => none

/-- Specification-side view: the fragments one source contributes — none
when its fetched text is empty or whitespace-only. -/
def sourceFragments (fetch : Str → Str) (gen : Str → GenOutcome)
    (p : Str × Str) : List Json :=
  if strip (fetch p.1) = [] then []
  else successFragments gen p.2 (chunk_text (fetch p.1) 6000)

theorem processChunksAcc_eq (gen : Str → GenOutcome) (name : Str) :
    ∀ chunks acc, processChunksAcc gen name chunks acc =
      acc ++ successFragments gen name chunks := by
  intro chunks
  induction chunks with
  | nil => intro acc; simp [processChunksAcc, successFragments]
  | cons c cs ih =>
    intro acc
    simp only [processChunksAcc, successFragments, List.filterMap_cons]
    cases h : extract_content_with_prompt gen c name with
    | none => simpa [successFragments] using ih acc
    | some v =>
      by_cases ht : v.truthy
      · simp only [ht, if_true]
        rw [ih (acc ++ [v])]
        simp [successFragments]
      · simp only [ht, Bool.false_eq_true, if_false]
        simpa [successFragments] using ih acc

theorem processSourcesAcc_eq (fetch : Str → Str) (gen : Str → GenOutcome) :
    ∀ ps acc, processSourcesAcc fetch gen ps acc =
      acc ++ (ps.map (sourceFragments fetch gen)).flatten := by
  intro ps
  induction ps with
  | nil => intro acc; simp [processSourcesAcc]
  | cons p rest ih =>
    intro acc
    obtain ⟨url, name⟩ := p
    simp only [processSourcesAcc, sourceFragments]
    by_cases h : strip (fetch url) = []
    · rw [if_pos h, ih acc]
      simp [sourceFragments, h]
    · rw [if_neg h, ih, processChunksAcc_eq]
      simp [sourceFragments, h]

/-- Claim C4: the orchestrator's aggregate is exactly the concatenation, in
processing order, of each source's successful fragments; a source whose
fetched text is empty or whitespace-only contributes nothing, a failed
chunk contributes no entry, and failures never stop later sources or
chunks from contributing. -/
theorem claim_C4 (fetch : Str → Str) (gen : Str → GenOutcome)
    (pdf_urls chapter_names : List Str) :
    process_all_chapters fetch gen pdf_urls chapter_names =
      ((pdf_urls.zip chapter_names).map (sourceFragments fetch gen)).flatten := by
  unfold process_all_chapters
  rw [processSourcesAcc_eq]
  simp

/-- Sanity scenario from the specification: three successful chunks out of
five yield an aggregate of length three. -/
example :
    (processChunksAcc
      (fun s =>
        if s = extraction_prompt (toStr "bad4") (toStr "Ch")
            ∨ s = extraction_prompt (toStr "bad5") (toStr "Ch") then
          GenOutcome.noResp
        else GenOutcome.resp (toStr "\x7b\"a\": 1\x7d"))
      (toStr "Ch")
      [toStr "c1", toStr "c2", toStr "c3", toStr "bad4", toStr "bad5"]
      []).length = 3 := rfl

/-- Claim C10: a chunk contributes a fragment to the aggregate exactly when
its extraction result is a parsed value that is truthy; a parsed-but-falsy
value (such as an empty object or empty array) is counted as a failure and
excluded. -/
theorem claim_C10 (gen : Str → GenOutcome) (name : Str) (chunks : List Str)
    (v : Json) :
    v ∈ processChunksAcc gen name chunks [] ↔
      ∃ c, c ∈ chunks ∧ extract_content_with_prompt gen c name = some v ∧
        v.truthy = true := by
  rw [processChunksAcc_eq]
  simp only [List.nil_append, successFragments, List.mem_filterMap]
  constructor
  · rintro ⟨c, hc, hf⟩
    refine ⟨c, hc, ?_⟩
    cases h : extract_content_with_prompt gen c name with
    | none => rw [h] at hf; simp at hf
    | some u =>
      rw [h] at hf
      have hf' : (if u.truthy = true then some u else none) = some v := hf
      by_cases ht : u.truthy
      · rw [if_pos ht] at hf'
        obtain rfl := Option.some.inj hf'
        exact ⟨rfl, ht⟩
      · rw [if_neg ht] at hf'
        simp at hf'
  · rintro ⟨c, hc, hext, ht⟩
    refine ⟨c, hc, ?_⟩
    rw [hext]
    show (if v.truthy = true then some v else none) = some v
    rw [if_pos ht]

/-! ## The planner transform (`create_study_planner`, src/solution.py 138-176) -/

def indentSp (n : Nat) : Str := List.replicate n ' '

mutual

/-- `json.dumps(x, indent=2)` at a given current indentation (separators
`","` and `": "`, items one per line, as Python prints with an indent). -/
def dumpsInd : Nat → Json → Str
  | _, .null => toStr "null"
  | _, .bool true => toStr "true"
  | _, .bool false => toStr "false"
  | _, .num n => intToStr n
  | _, .str s => dumpStr s
  | _, .arr [] => ['[', ']']
  | ind, .arr (v :: vs) =>
    '[' :: '\n' :: (indentSp (ind + 2) ++ dumpsInd (ind + 2) v
      ++ dumpsIndItems (ind + 2) vs) ++ '\n' :: indentSp ind ++ [']']
  | _, .obj [] => ['{', '}']
  | ind, .obj (m :: ms) =>
    '{' :: '\n' :: (indentSp (ind + 2) ++ dumpsIndMember (ind + 2) m
      ++ dumpsIndMembers (ind + 2) ms) ++ '\n' :: indentSp ind ++ ['}']

def dumpsIndItems : Nat → List Json → Str
  | _, [] => []
  | ind, v :: vs =>
    ',' :: '\n' :: (indentSp ind ++ dumpsInd ind v) ++ dumpsIndItems ind vs

def dumpsIndMember : Nat → Str × Json → Str
  | ind, (k, v) => dumpStr k ++ ':' :: ' ' :: dumpsInd ind v

def dumpsIndMembers : Nat → List (Str × Json) → Str
  | _, [] => []
  | ind, m :: ms =>
    ',' :: '\n' :: (indentSp ind ++ dumpsIndMember ind m) ++ dumpsIndMembers ind ms

end

/-- `topic.get("topic_name", "")` inside the planner's list comprehension:
raises (`error`) unless the topic is a dict. -/
def topicName : Json → Except Unit Json
  | .obj g => .ok (dictGet g (toStr "topic_name") (Json.str []))
  | _ => .error ()

def collectTopics : List Json → Except Unit (List Json)
  | [] => .ok []
  | t :: ts =>
    match topicName t with
    | .ok v =>
      match collectTopics ts with
      | .ok vs => .ok (v :: vs)
      | .error e => .error e
    | .error e => .error e

/-- `for topic in chapter.get("topics", [])`: iterating a list visits its
elements; iterating an empty string or empty dict visits nothing; iterating
a non-empty string or dict visits strings, whose `.get` raises; any other
value is not iterable and raises. -/
def iterTopics : Json → Except Unit (List Json)
  | .arr l => collectTopics l
  | .str [] => .ok []
  | .obj [] => .ok []
  | _ => .error ()

/-- One step of the `simplified_data` projection (src/solution.py lines
141-147): `chapter.get(...)` raises unless the chapter is a dict. -/
def simplifyChapter : Json → Except Unit (Json × List Json)
  | .obj f =>
    match iterTopics (dictGet f (toStr "topics") (Json.arr [])) with
    | .ok ts => .ok (dictGet f (toStr "chapter_name") (Json.str []), ts)
    | .error e => .error e
  | _ => .error ()

def simplifyAll : List Json → Except Unit (List (Json × List Json))
  | [] => .ok []
  | ch :: rest =>
    match simplifyChapter ch with
    | .ok s =>
      match simplifyAll rest with
      | .ok ss => .ok (s :: ss)
      | .error e => .error e
    | .error e => .error e

/-- The `simplified_data` list as the JSON value that
`json.dumps(simplified_data, indent=2)` serialises. -/
def simplifiedToJson (simplified : List (Json × List Json)) : Json :=
  Json.arr (simplified.map fun e =>
    Json.obj [(toStr "chapter_name", e.1), (toStr "topics", Json.arr e.2)])

/-- The planner instruction template (src/solution.py lines 149-167). -/
def planner_prompt (simplified : List (Json × List Json)) (study_days : Nat) : Str :=
  toStr "\nCreate a " ++ natToStr study_days
    ++ toStr "-day study plan for these chapters. Return ONLY valid JSON array, no explanations.\n\nChapters: "
    ++ dumpsInd 0 (simplifiedToJson simplified)
    ++ toStr "\n\nRequired JSON format:\n[\n  \x7b\n    \"day\": 1,\n    \"chapters\": [\"Chapter Name\"],\n    \"topics_subtopics\": [\"Topic 1\", \"Topic 2\"],\n    \"activities\": [\"Reading\", \"Exercises\"],\n    \"estimated_hours\": 2,\n    \"notes_space\": \"\"\n  \x7d\n]\n\nDistribute all topics across "
    ++ natToStr study_days
    ++ toStr " days logically. Return only the JSON array.\n"

/-- `create_study_planner` (src/solution.py lines 138-176). The
`simplified_data` projection runs before the `try` block, so a non-dict
chapter raises out of the function (`Except.error`); the generation call is
inside the `try`, so its exceptions, falsy responses, and unparsable
responses all collapse to `Except.ok none`. -/
def create_study_planner (gen : Str → GenOutcome) (json_data : List Json)
    (study_days : Nat) : Except Unit (Option Json) :=
  match simplifyAll json_data with
  | .error e => .error e
  | .ok simplified =>
    .ok
      (match gen (planner_prompt simplified study_days) with
       | .raises => none
       | .noResp => none
       | .resp t => if t = [] then none else clean_json_response t)

/-- The `"day"` field of each entry of a plan array (the claim's "day
numbers of the returned StudyDayPlan entries"). -/
def dayNumbers : Json → List Json
  | .arr l =>
    l.map fun e =>
      match e with
      | .obj f => dictGet f (toStr "day") Json.null
      | _ => Json.null
  | _ => []

/-- A generation capability whose plan response is a structurally valid
JSON array with day numbers 5 and 7. -/
def genPlanBad : Str → GenOutcome :=
  fun _ => GenOutcome.resp (toStr "[\x7b\"day\": 5\x7d, \x7b\"day\": 7\x7d]")

/-- Counterexample to claim C5 as stated: the planner performs no semantic
validation, so for `study_days = 2` it happily returns a plan whose day
numbers are `[5, 7]` — they are neither unique-in-range nor a cover of
`1..2`. -/
theorem claim_C5_counterexample :
    create_study_planner genPlanBad [] 2 =
      Except.ok (some (Json.arr [Json.obj [(toStr "day", Json.num 5)],
        Json.obj [(toStr "day", Json.num 7)]])) ∧
    dayNumbers (Json.arr [Json.obj [(toStr "day", Json.num 5)],
        Json.obj [(toStr "day", Json.num 7)]]) = [Json.num 5, Json.num 7] ∧
    [Json.num 5, Json.num 7] ≠ [Json.num 1, Json.num 2] :=
  ⟨rfl, rfl, by simp⟩

/-- Claim C5 as amended: a plan is returned only when the whole transform
succeeds — the generation call produced a non-empty response text and that
text parsed — and the returned plan is exactly the parsed model output,
with no validation of its day numbers; on any generation or parse failure
no plan at all is returned (never a truncated one). -/
theorem claim_C5 (gen : Str → GenOutcome) (json_data : List Json)
    (study_days : Nat) (plan : Json)
    (h : create_study_planner gen json_data study_days = Except.ok (some plan)) :
    ∃ simplified t, simplifyAll json_data = Except.ok simplified ∧
      gen (planner_prompt simplified study_days) = GenOutcome.resp t ∧
      t ≠ [] ∧ clean_json_response t = some plan := by
  unfold create_study_planner at h
  cases hsim : simplifyAll json_data with
  | error e =>
    rw [hsim] at h
    have hco : (Except.error e : Except Unit (Option Json)) =
        Except.ok (some plan) := h
    exact absurd hco (by simp)
  | ok simplified =>
    rw [hsim] at h
    have h' : (match gen (planner_prompt simplified study_days) with
        | GenOutcome.raises => none
        | GenOutcome.noResp => none
        | GenOutcome.resp t => if t = [] then none else clean_json_response t) =
          some plan :=
      Except.ok.inj h
    refine ⟨simplified, ?_⟩
    cases hgen : gen (planner_prompt simplified study_days) with
    | raises => rw [hgen] at h'; simp at h'
    | noResp => rw [hgen] at h'; simp at h'
    | resp t =>
      rw [hgen] at h'
      have h'' : (if t = [] then none else clean_json_response t) = some plan := h'
      by_cases ht : t = []
      · rw [if_pos ht] at h''; simp at h''
      · rw [if_neg ht] at h''
        exact ⟨t, rfl, rfl, ht, h''⟩

theorem claim_C5_witness :
    ∃ simplified t, simplifyAll [] = Except.ok simplified ∧
      genPlanBad (planner_prompt simplified 2) = GenOutcome.resp t ∧
      t ≠ [] ∧ clean_json_response t =
        some (Json.arr [Json.obj [(toStr "day", Json.num 5)],
          Json.obj [(toStr "day", Json.num 7)]]) :=
  claim_C5 genPlanBad [] 2
    (Json.arr [Json.obj [(toStr "day", Json.num 5)],
      Json.obj [(toStr "day", Json.num 7)]]) rfl

/-! ## The planner projection drops everything but names (claim C9) -/

def isObjB : Json → Bool
  | .obj _ => true
  | _ => false

/-- The fragment shape on which the planner projection runs without
raising: a dict whose `"topics"` entry is a list of dicts. -/
def plannerShaped : Json → Bool
  | .obj f =>
    match dictGet f (toStr "topics") (Json.arr []) with
    | .arr ts => ts.all isObjB
    | _ => false
  | _ => false

/-- Specification-side scrubbing: keep only the fragment's chapter name and,
for each topic, only its topic name — exactly what the spec says the
projection embeds ("chapter name, list of topic names only — sub-topics
and content are dropped"). -/
def topicNameOnly (t : Json) : Json :=
  Json.obj [(toStr "topic_name",
    match t with
    | .obj g => dictGet g (toStr "topic_name") (Json.str [])
    | _ => Json.str [])]

/-- Specification-side scrubbing of a whole fragment. -/
def scrubChapter (ch : Json) : Json :=
  match ch with
  | .obj f =>
    Json.obj [(toStr "chapter_name", dictGet f (toStr "chapter_name") (Json.str [])),
      (toStr "topics",
        match dictGet f (toStr "topics") (Json.arr []) with
        | .arr ts => Json.arr (ts.map topicNameOnly)
        | _ => Json.arr [])]
  | _ => ch

theorem collectTopics_scrub (ts : List Json) (h : ∀ t ∈ ts, isObjB t = true) :
    collectTopics (ts.map topicNameOnly) = collectTopics ts := by
  induction ts with
  | nil => rfl
  | cons t ts ih =>
    have ht : isObjB t = true := h t (by simp)
    obtain ⟨g, rfl⟩ : ∃ g, t = Json.obj g := by
      cases t with
      | obj g => exact ⟨g, rfl⟩
      | null => exact absurd ht (by simp [isObjB])
      | bool b => exact absurd ht (by simp [isObjB])
      | num n => exact absurd ht (by simp [isObjB])
      | str s => exact absurd ht (by simp [isObjB])
      | arr l => exact absurd ht (by simp [isObjB])
    simp only [List.map_cons, collectTopics]
    rw [ih (fun u hu => h u (by simp [hu]))]
    rfl

theorem simplifyChapter_scrub (ch : Json) (h : plannerShaped ch = true) :
    simplifyChapter (scrubChapter ch) = simplifyChapter ch := by
  cases ch with
  | obj f =>
    have h' : (match dictGet f (toStr "topics") (Json.arr []) with
        | Json.arr ts => ts.all isObjB
        | _ => false) = true := h
    have hts : ∃ ts, dictGet f (toStr "topics") (Json.arr []) = Json.arr ts ∧
        ∀ t ∈ ts, isObjB t = true := by
      cases htv : dictGet f (toStr "topics") (Json.arr []) with
      | arr ts =>
        rw [htv] at h'
        exact ⟨ts, rfl, by simpa [List.all_eq_true] using h'⟩
      | null => rw [htv] at h'; exact absurd h' (by simp)
      | bool b => rw [htv] at h'; exact absurd h' (by simp)
      | num n => rw [htv] at h'; exact absurd h' (by simp)
      | str s => rw [htv] at h'; exact absurd h' (by simp)
      | obj g => rw [htv] at h'; exact absurd h' (by simp)
    obtain ⟨ts, htv, hobj⟩ := hts
    have hscrub : scrubChapter (Json.obj f) =
        Json.obj [(toStr "chapter_name",
            dictGet f (toStr "chapter_name") (Json.str [])),
          (toStr "topics", Json.arr (ts.map topicNameOnly))] := by
      show (Json.obj [(toStr "chapter_name",
            dictGet f (toStr "chapter_name") (Json.str [])),
          (toStr "topics",
            match dictGet f (toStr "topics") (Json.arr []) with
            | Json.arr ts => Json.arr (ts.map topicNameOnly)
            | _ => Json.arr [])]) = _
      rw [htv]
    have hL : simplifyChapter (scrubChapter (Json.obj f)) =
        match collectTopics (ts.map topicNameOnly) with
        | .ok ts2 => .ok (dictGet f (toStr "chapter_name") (Json.str []), ts2)
        | .error e => .error e := by
      rw [hscrub]
      rfl
    have hR : simplifyChapter (Json.obj f) =
        match collectTopics ts with
        | .ok ts2 => .ok (dictGet f (toStr "chapter_name") (Json.str []), ts2)
        | .error e => .error e := by
      show (match iterTopics (dictGet f (toStr "topics") (Json.arr [])) with
        | Except.ok ts2 =>
          Except.ok (dictGet f (toStr "chapter_name") (Json.str []), ts2)
        | Except.error e => Except.error e) = _
      rw [htv]
      rfl
    rw [hL, hR, collectTopics_scrub ts hobj]
  | null => exact absurd h (by simp [plannerShaped])
  | bool b => exact absurd h (by simp [plannerShaped])
  | num n => exact absurd h (by simp [plannerShaped])
  | str s => exact absurd h (by simp [plannerShaped])
  | arr l => exact absurd h (by simp [plannerShaped])

theorem simplifyAll_scrub (data : List Json)
    (h : ∀ ch ∈ data, plannerShaped ch = true) :
    simplifyAll (data.map scrubChapter) = simplifyAll data := by
  induction data with
  | nil => rfl
  | cons ch rest ih =>
    simp only [List.map_cons, simplifyAll]
    rw [simplifyChapter_scrub ch (h ch (by simp)),
      ih (fun u hu => h u (by simp [hu]))]

/-- Claim C9: the planner instruction depends on each fragment only through
its chapter name and its ordered list of topic names — replacing every
fragment by its scrubbed form (sub-topic records, content items and any
other fields removed) leaves the whole planner transform unchanged, for
every generation capability. -/
theorem claim_C9 (gen : Str → GenOutcome) (study_days : Nat)
    (json_data : List Json) (h : ∀ ch ∈ json_data, plannerShaped ch = true) :
    create_study_planner gen (json_data.map scrubChapter) study_days =
      create_study_planner gen json_data study_days := by
  unfold create_study_planner
  rw [simplifyAll_scrub json_data h]

theorem claim_C9_witness :
    create_study_planner (fun _ => GenOutcome.raises)
      ([Json.obj [(toStr "chapter_name", Json.str (toStr "Sound")),
        (toStr "topics", Json.arr [Json.obj
          [(toStr "topic_name", Json.str (toStr "Echoes")),
           (toStr "sub_topics", Json.arr [Json.str (toStr "dropped")])]])]].map
        scrubChapter) 3 =
    create_study_planner (fun _ => GenOutcome.raises)
      [Json.obj [(toStr "chapter_name", Json.str (toStr "Sound")),
        (toStr "topics", Json.arr [Json.obj
          [(toStr "topic_name", Json.str (toStr "Echoes")),
           (toStr "sub_topics", Json.arr [Json.str (toStr "dropped")])]])]] 3 :=
  claim_C9 (fun _ => GenOutcome.raises) 3 _ (by decide)

/-! ## Decidable equality for `Json` -/

mutual

def jbeq : Json → Json → Bool
  | .null, .null => true
  | .bool a, .bool b => a == b
  | .num a, .num b => a == b
  | .str a, .str b => a == b
  | .arr a, .arr b => jbeqList a b
  | .obj a, .obj b => jbeqFields a b
  | _, _ => false

def jbeqList : List Json → List Json → Bool
  | [], [] => true
  | x :: xs, y :: ys => jbeq x y && jbeqList xs ys
  | _, _ => false

def jbeqFields : List (Str × Json) → List (Str × Json) → Bool
  | [], [] => true
  | (k1, v1) :: xs, (k2, v2) :: ys => k1 == k2 && jbeq v1 v2 && jbeqFields xs ys
  | _, _ => false

end

mutual

theorem jbeq_iff_eq : ∀ a b : Json, jbeq a b = true ↔ a = b
  | .null, .null => by simp [jbeq]
  | .bool _, .bool _ => by simp [jbeq]
  | .num _, .num _ => by simp [jbeq]
  | .str _, .str _ => by simp [jbeq]
  | .arr x, .arr y => by simp [jbeq, jbeqList_iff_eq x y]
  | .obj x, .obj y => by simp [jbeq, jbeqFields_iff_eq x y]
  | .null, .bool _ | .null, .num _ | .null, .str _ | .null, .arr _
  | .null, .obj _ | .bool _, .null | .bool _, .num _ | .bool _, .str _
  | .bool _, .arr _ | .bool _, .obj _ | .num _, .null | .num _, .bool _
  | .num _, .str _ | .num _, .arr _ | .num _, .obj _ | .str _, .null
  | .str _, .bool _ | .str _, .num _ | .str _, .arr _ | .str _, .obj _
  | .arr _, .null | .arr _, .bool _ | .arr _, .num _ | .arr _, .str _
  | .arr _, .obj _ | .obj _, .null | .obj _, .bool _ | .obj _, .num _
  | .obj _, .str _ | .obj _, .arr _ => by simp [jbeq]

theorem jbeqList_iff_eq : ∀ xs ys : List Json, jbeqList xs ys = true ↔ xs = ys
  | [], [] => by simp [jbeqList]
  | x :: xs, y :: ys => by
    simp [jbeqList, jbeq_iff_eq x y, jbeqList_iff_eq xs ys]
  | [], _ :: _ => by simp [jbeqList]
  | _ :: _, [] => by simp [jbeqList]

theorem jbeqFields_iff_eq :
    ∀ xs ys : List (Str × Json), jbeqFields xs ys = true ↔ xs = ys
  | [], [] => by simp [jbeqFields]
  | (k1, v1) :: xs, (k2, v2) :: ys => by
    simp [jbeqFields, jbeq_iff_eq v1 v2, jbeqFields_iff_eq xs ys, and_assoc]
  | [], _ :: _ => by simp [jbeqFields]
  | _ :: _, [] => by simp [jbeqFields]

end

instance : DecidableEq Json := fun a b => decidable_of_iff _ (jbeq_iff_eq a b)

/-! ## Well-formed values: objects with distinct keys

The model's objects are association lists; a Python `dict` corresponds to
one with pairwise-distinct keys. -/

def allDistinct : List Str → Bool
  | [] => true
  | k :: ks => !(ks.contains k) && allDistinct ks

mutual

def wfJson : Json → Bool
  | .null => true
  | .bool _ => true
  | .num _ => true
  | .str _ => true
  | .arr l => wfList l
  | .obj f => allDistinct (f.map Prod.fst) && wfFields f

def wfList : List Json → Bool
  | [] => true
  | v :: vs => wfJson v && wfList vs

def wfFields : List (Str × Json) → Bool
  | [] => true
  | (_, v) :: ms => wfJson v && wfFields ms

end

/-! ## Claim C1: fenced round trip through `clean_json_response` -/

/-- Triple-backtick code fence with the `json` language tag. -/
def fenceTag (s : Str) : Str := toStr "```json\n" ++ s ++ toStr "\n```"

/-- Triple-backtick code fence without a language tag. -/
def fenceNoTag (s : Str) : Str := toStr "```\n" ++ s ++ toStr "\n```"

/-- Counterexample to claim C1 as stated ("for every valid JSON value X"):
(i) a fenced scalar such as `42` with a language tag fails to parse at all,
because after fence stripping the tag word `json` is glued to the payload
and there is no brace or bracket to match;
(ii) a fenced array whose serialisation contains braces is shadowed by the
brace pattern, which is tried first: `[{"a": 1}]` comes back as the inner
object `{"a": 1}`, not as the array;
(iii) a fenced object whose serialisation contains a triple backtick inside
a string is corrupted by fence stripping: `{"a": "```"}` comes back as
`{"a": ""}`. -/
theorem claim_C1_counterexample :
    clean_json_response (fenceTag (dumps (Json.num 42))) = none ∧
    clean_json_response
        (fenceTag (dumps (Json.arr [Json.obj [(toStr "a", Json.num 1)]]))) =
      some (Json.obj [(toStr "a", Json.num 1)]) ∧
    some (Json.obj [(toStr "a", Json.num 1)]) ≠
      some (Json.arr [Json.obj [(toStr "a", Json.num 1)]]) ∧
    clean_json_response
        (fenceTag (dumps (Json.obj [(toStr "a", Json.str (toStr "```"))]))) =
      some (Json.obj [(toStr "a", Json.str [])]) ∧
    some (Json.obj [(toStr "a", Json.str [])]) ≠
      some (Json.obj [(toStr "a", Json.str (toStr "```"))]) :=
  ⟨rfl, rfl, by decide, rfl, by decide⟩

/-! ## Round trip: digits -/

theorem digitChar_toNat (m : Nat) (h : m < 10) : (digitChar m).toNat = 48 + m := by
  interval_cases m <;> rfl

theorem digitChar_isDigit (m : Nat) (h : m < 10) : isDigit (digitChar m) = true := by
  interval_cases m <;> rfl

theorem digitChar_ne_zero (m : Nat) (h : m < 10) (h0 : m ≠ 0) : digitChar m ≠ '0' := by
  interval_cases m
  · exact absurd rfl h0
  all_goals decide

theorem digitsToNat_append_single (a : Str) (d : Char) :
    digitsToNat (a ++ [d]) = 10 * digitsToNat a + (d.toNat - 48) := by
  simp only [digitsToNat, List.foldl_append, List.foldl_cons, List.foldl_nil]
  omega

theorem natDigitsF_spec :
    ∀ n fl, n < fl →
      (∀ c ∈ natDigitsF fl n, isDigit c = true) ∧
      digitsToNat (natDigitsF fl n) = n ∧
      ∃ d t, natDigitsF fl n = d :: t ∧ (n ≠ 0 → d ≠ '0') := by
  intro n
  induction n using Nat.strong_induction_on with
  | _ n ih =>
    intro fl hfl
    obtain ⟨fl', rfl⟩ : ∃ fl', fl = fl' + 1 := ⟨fl - 1, by omega⟩
    by_cases h10 : n < 10
    · have heq : natDigitsF (fl' + 1) n = [digitChar n] := by
        simp [natDigitsF, h10]
      rw [heq]
      refine ⟨?_, ?_, digitChar n, [], rfl, fun h0 => digitChar_ne_zero n h10 h0⟩
      · intro c hc
        rw [List.mem_singleton.mp hc]
        exact digitChar_isDigit n h10
      · show digitsToNat ([] ++ [digitChar n]) = n
        rw [digitsToNat_append_single, digitChar_toNat n h10]
        simp [digitsToNat]
    · have heq : natDigitsF (fl' + 1) n =
          natDigitsF fl' (n / 10) ++ [digitChar (n % 10)] := by
        simp [natDigitsF, h10]
      have hdiv : n / 10 < n := Nat.div_lt_self (by omega) (by norm_num)
      have hmod : n % 10 < 10 := Nat.mod_lt n (by norm_num)
      obtain ⟨hdig, hval, d, t, hdt, hd0⟩ := ih (n / 10) hdiv fl' (by omega)
      rw [heq]
      refine ⟨?_, ?_, d, t ++ [digitChar (n % 10)], ?_, ?_⟩
      · intro c hc
        rcases List.mem_append.mp hc with hc' | hc'
        · exact hdig c hc'
        · rw [List.mem_singleton.mp hc']
          exact digitChar_isDigit _ hmod
      · rw [digitsToNat_append_single, hval, digitChar_toNat _ hmod]
        omega
      · rw [hdt]; simp
      · intro _
        exact hd0 (by omega)

theorem natToStr_spec (n : Nat) :
    (∀ c ∈ natToStr n, isDigit c = true) ∧
    digitsToNat (natToStr n) = n ∧
    ∃ d t, natToStr n = d :: t ∧ (n ≠ 0 → d ≠ '0') :=
  natDigitsF_spec n (n + 1) (by omega)

/-- First character of `rest` may not extend a preceding numeric literal. -/
def headSafe : Str → Bool
  | [] => true
  | c :: _ => !(isDigit c) && !(c = '.') && !(c = 'e') && !(c = 'E')

theorem takeWhile_append_all (p : Char → Bool) (b : Str) :
    ∀ a : Str, (∀ c ∈ a, p c = true) →
      List.takeWhile p (a ++ b) = a ++ List.takeWhile p b := by
  intro a
  induction a with
  | nil => intro _; simp
  | cons c a' ih =>
    intro h
    have hc := h c (by simp)
    simp only [List.cons_append, List.takeWhile_cons, hc, if_true]
    rw [ih (fun d hd => h d (by simp [hd]))]

theorem dropWhile_append_all (p : Char → Bool) (b : Str) :
    ∀ a : Str, (∀ c ∈ a, p c = true) →
      List.dropWhile p (a ++ b) = List.dropWhile p b := by
  intro a
  induction a with
  | nil => intro _; simp
  | cons c a' ih =>
    intro h
    have hc := h c (by simp)
    simp only [List.cons_append, List.dropWhile_cons, hc, if_true]
    exact ih (fun d hd => h d (by simp [hd]))

theorem parseNat_natToStr (n : Nat) (rest : Str) (h : headSafe rest = true) :
    parseNat (natToStr n ++ rest) = some (n, rest) := by
  obtain ⟨hdig, hval, d, t, hdt, hd0⟩ := natToStr_spec n
  have hhead : ∀ c r, rest = c :: r →
      isDigit c = false ∧ ¬c = '.' ∧ ¬c = 'e' ∧ ¬c = 'E' := by
    intro c r hr
    subst hr
    simp only [headSafe, Bool.and_eq_true, Bool.not_eq_true',
      decide_eq_false_iff_not] at h
    exact ⟨h.1.1.1, h.1.1.2, h.1.2, h.2⟩
  have hrtake : List.takeWhile isDigit rest = [] := by
    cases hre : rest with
    | nil => rfl
    | cons c r => simp [List.takeWhile_cons, (hhead c r hre).1]
  have hrdrop : List.dropWhile isDigit rest = rest := by
    cases hre : rest with
    | nil => rfl
    | cons c r => simp [List.dropWhile_cons, (hhead c r hre).1]
  have htake : List.takeWhile isDigit (natToStr n ++ rest) = natToStr n := by
    rw [takeWhile_append_all isDigit rest (natToStr n) hdig, hrtake,
      List.append_nil]
  have hdrop : List.dropWhile isDigit (natToStr n ++ rest) = rest := by
    rw [dropWhile_append_all isDigit rest (natToStr n) hdig, hrdrop]
  have hne : natToStr n ≠ [] := by rw [hdt]; simp
  have hnozero : ¬(1 < (natToStr n).length ∧ (natToStr n).head? = some '0') := by
    by_cases h0 : n = 0
    · subst h0
      intro hcon
      exact absurd hcon.1 (by rw [show natToStr 0 = ['0'] from rfl]; simp)
    · intro hcon
      rw [hdt] at hcon
      exact hd0 h0 (by simpa using hcon.2)
  unfold parseNat
  simp only [htake, hdrop, hne, if_neg hnozero, if_false]
  cases hre : rest with
  | nil => simp [hval]
  | cons c r =>
    obtain ⟨_, hdot, he, hE⟩ := hhead c r hre
    simp [hdot, he, hE, hval]

/-! ## Round trip: strings -/

theorem hexDigitChar_hexVal (m : Nat) (h : m < 16) :
    hexVal (hexDigitChar m) = some m := by
  interval_cases m <;> rfl

theorem parseStrBody_dumpBody :
    ∀ s rest, parseStrBody (dumpStrBody s ++ '"' :: rest) = some (s, rest) := by
  intro s
  induction s with
  | nil => intro rest; rfl
  | cons c s' ih =>
    intro rest
    have hbody : dumpStrBody (c :: s') ++ '"' :: rest =
        escChar c ++ (dumpStrBody s' ++ '"' :: rest) := by
      simp [dumpStrBody]
    rw [hbody]
    by_cases h1 : c = '"'
    · subst h1
      show parseEscSeq ('"' :: (dumpStrBody s' ++ '"' :: rest)) = _
      rw [parseEscSeq]
      simp [escDecode, ih rest]
    · by_cases h2 : c = '\\'
      · subst h2
        show parseEscSeq ('\\' :: (dumpStrBody s' ++ '"' :: rest)) = _
        rw [parseEscSeq]
        simp [escDecode, ih rest]
      · by_cases h3 : c = '\n'
        · subst h3
          show parseEscSeq ('n' :: (dumpStrBody s' ++ '"' :: rest)) = _
          rw [parseEscSeq]
          simp [escDecode, ih rest]
        · by_cases h4 : c = '\t'
          · subst h4
            show parseEscSeq ('t' :: (dumpStrBody s' ++ '"' :: rest)) = _
            rw [parseEscSeq]
            simp [escDecode, ih rest]
          · by_cases h5 : c = '\r'
            · subst h5
              show parseEscSeq ('r' :: (dumpStrBody s' ++ '"' :: rest)) = _
              rw [parseEscSeq]
              simp [escDecode, ih rest]
            · by_cases h6 : c = '\x08'
              · subst h6
                show parseEscSeq ('b' :: (dumpStrBody s' ++ '"' :: rest)) = _
                rw [parseEscSeq]
                simp [escDecode, ih rest]
              · by_cases h7 : c = '\x0c'
                · subst h7
                  show parseEscSeq ('f' :: (dumpStrBody s' ++ '"' :: rest)) = _
                  rw [parseEscSeq]
                  simp [escDecode, ih rest]
                · by_cases h8 : c.toNat < 32
                  · have hesc : escChar c =
                        ['\\', 'u', '0', '0', hexDigitChar (c.toNat / 16),
                          hexDigitChar (c.toNat % 16)] := by
                      simp [escChar, h1, h2, h3, h4, h5, h6, h7, h8]
                    rw [hesc]
                    have hdivlt : c.toNat / 16 < 16 := by omega
                    have hmodlt : c.toNat % 16 < 16 := by omega
                    show parseEscSeq ('u' :: '0' :: '0' ::
                      hexDigitChar (c.toNat / 16) :: hexDigitChar (c.toNat % 16) ::
                      (dumpStrBody s' ++ '"' :: rest)) = _
                    rw [parseEscSeq]
                    simp only [if_pos rfl]
                    rw [parseHexSeq]
                    have h00 : hexVal '0' = some 0 := rfl
                    simp only [h00, hexDigitChar_hexVal _ hdivlt,
                      hexDigitChar_hexVal _ hmodlt, ih rest]
                    have harith : ((0 * 16 + 0) * 16 + c.toNat / 16) * 16 +
                        c.toNat % 16 = c.toNat := by omega
                    rw [harith, Char.ofNat_toNat]
                    simp
                  · have hesc : escChar c = [c] := by
                      simp [escChar, h1, h2, h3, h4, h5, h6, h7, h8]
                    rw [hesc]
                    show parseStrBody (c :: (dumpStrBody s' ++ '"' :: rest)) = _
                    rw [parseStrBody]
                    simp [h1, h2, h8, ih rest]

/-! ## Shape of serialised values -/

theorem dumps_num (n : Int) : dumps (.num n) = intToStr n := rfl

theorem dumps_str (s : Str) :
    dumps (.str s) = '"' :: (dumpStrBody s ++ ['"']) := rfl

theorem dumps_arr_cons (v : Json) (vs : List Json) :
    dumps (.arr (v :: vs)) = '[' :: ((dumps v ++ dumpsItems vs) ++ [']']) := rfl

theorem dumps_obj_cons (m : Str × Json) (ms : List (Str × Json)) :
    dumps (.obj (m :: ms)) =
      '{' :: ((dumpsMember m ++ dumpsMembers ms) ++ ['}']) := rfl

theorem dumpsItems_cons (v : Json) (vs : List Json) :
    dumpsItems (v :: vs) = ',' :: ' ' :: (dumps v ++ dumpsItems vs) := rfl

theorem dumpsMembers_cons (m : Str × Json) (ms : List (Str × Json)) :
    dumpsMembers (m :: ms) = ',' :: ' ' :: (dumpsMember m ++ dumpsMembers ms) := rfl

theorem dumpsMember_eq (k : Str) (v : Json) :
    dumpsMember (k, v) = '"' :: ((dumpStrBody k ++ ['"']) ++ ':' :: ' ' :: dumps v) := by
  show dumpStr k ++ ':' :: ' ' :: dumps v = _
  simp [dumpStr]

theorem isDigit_ne (c d : Char) (h : isDigit c = true) (hd : isDigit d = false) :
    c ≠ d := by
  intro he
  subst he
  rw [h] at hd
  cases hd

theorem jsonWS_false_of_isDigit (c : Char) (h : isDigit c = true) :
    jsonWS c = false := by
  have h1 : c ≠ ' ' := isDigit_ne c ' ' h rfl
  have h2 : c ≠ '\t' := isDigit_ne c '\t' h rfl
  have h3 : c ≠ '\n' := isDigit_ne c '\n' h rfl
  have h4 : c ≠ '\r' := isDigit_ne c '\r' h rfl
  simp [jsonWS, h1, h2, h3, h4]

/-- The first character of any serialised value: never whitespace, never a
closing delimiter. -/
theorem dumps_head_prop (X : Json) :
    ∃ c t, dumps X = c :: t ∧ jsonWS c = false ∧ c ≠ ']' ∧ c ≠ '}' := by
  cases X with
  | null => exact ⟨'n', toStr "ull", rfl, rfl, by decide, by decide⟩
  | bool b =>
    cases b with
    | true => exact ⟨'t', toStr "rue", rfl, rfl, by decide, by decide⟩
    | false => exact ⟨'f', toStr "alse", rfl, rfl, by decide, by decide⟩
  | num n =>
    by_cases hn : n < 0
    · refine ⟨'-', natToStr n.natAbs, ?_, rfl, by decide, by decide⟩
      rw [dumps_num, intToStr, if_pos hn]
    · obtain ⟨hdig, _, d, t, hdt, _⟩ := natToStr_spec n.toNat
      have hd : isDigit d = true := hdig d (by rw [hdt]; simp)
      refine ⟨d, t, ?_, jsonWS_false_of_isDigit d hd, isDigit_ne d ']' hd rfl,
        isDigit_ne d '}' hd rfl⟩
      rw [dumps_num, intToStr, if_neg hn, hdt]
  | str s => exact ⟨'"', dumpStrBody s ++ ['"'], dumps_str s, rfl, by decide, by decide⟩
  | arr l =>
    cases l with
    | nil => exact ⟨'[', [']'], rfl, rfl, by decide, by decide⟩
    | cons v vs =>
      exact ⟨'[', (dumps v ++ dumpsItems vs) ++ [']'], dumps_arr_cons v vs, rfl,
        by decide, by decide⟩
  | obj l =>
    cases l with
    | nil => exact ⟨'{', ['}'], rfl, rfl, by decide, by decide⟩
    | cons m ms =>
      exact ⟨'{', (dumpsMember m ++ dumpsMembers ms) ++ ['}'], dumps_obj_cons m ms,
        rfl, by decide, by decide⟩

theorem dumps_ne_nil (X : Json) : dumps X ≠ [] := by
  obtain ⟨c, t, hct, _, _, _⟩ := dumps_head_prop X
  simp [hct]

theorem dumps_length_pos (X : Json) : 1 ≤ (dumps X).length := by
  obtain ⟨c, t, hct, _, _, _⟩ := dumps_head_prop X
  simp [hct]

theorem skipWS_cons_nonws (c : Char) (X : Str) (h : jsonWS c = false) :
    skipWS (c :: X) = c :: X := by
  simp [skipWS, List.dropWhile_cons, h]

theorem skipWS_space (X : Str) : skipWS (' ' :: X) = skipWS X := by
  simp [skipWS, List.dropWhile_cons, show jsonWS ' ' = true from rfl]

theorem skipWS_dumps_append (v : Json) (Y : Str) :
    skipWS (dumps v ++ Y) = dumps v ++ Y := by
  obtain ⟨c, t, hct, hws, _, _⟩ := dumps_head_prop v
  rw [hct, List.cons_append]
  exact skipWS_cons_nonws c (t ++ Y) hws

theorem skipWS_dumpsMember_append (m : Str × Json) (Y : Str) :
    skipWS (dumpsMember m ++ Y) = dumpsMember m ++ Y := by
  obtain ⟨k, v⟩ := m
  rw [dumpsMember_eq, List.cons_append]
  exact skipWS_cons_nonws '"' _ rfl

theorem dumpsMember_length_pos (m : Str × Json) : 1 ≤ (dumpsMember m).length := by
  obtain ⟨k, v⟩ := m
  rw [dumpsMember_eq]
  simp

/-- The parser–printer round trip, by induction on fuel: with fuel at least
the length of the serialised text, parsing a serialised value (in value,
array-elements, or object-members position) returns exactly that value and
leaves the trailing input untouched. -/
theorem parse_dumps : ∀ f : Nat,
    (∀ X rest, (dumps X).length ≤ f → headSafe rest = true →
      parseF f PMode.val (dumps X ++ rest) = some (X, rest)) ∧
    (∀ v vs rest, (dumps v ++ dumpsItems vs).length < f →
      parseF f PMode.items ((dumps v ++ dumpsItems vs) ++ ']' :: rest) =
        some (.arr (v :: vs), rest)) ∧
    (∀ m ms rest, (dumpsMember m ++ dumpsMembers ms).length < f →
      parseF f PMode.members ((dumpsMember m ++ dumpsMembers ms) ++ '}' :: rest) =
        some (.obj (m :: ms), rest)) := by
  intro f
  induction f with
  | zero =>
    refine ⟨?_, ?_, ?_⟩
    · intro X rest hlen _
      exact absurd hlen (by have := dumps_length_pos X; omega)
    · intro v vs rest hlen
      exact absurd hlen (by omega)
    · intro m ms rest hlen
      exact absurd hlen (by omega)
  | succ f ih =>
    obtain ⟨ihA, ihB, ihC⟩ := ih
    refine ⟨?_, ?_, ?_⟩
    · -- value position
      intro X rest hlen hsafe
      cases X with
      | null => rfl
      | bool b => cases b <;> rfl
      | num n =>
        by_cases hn : n < 0
        · have hd : dumps (.num n) = '-' :: natToStr n.natAbs := by
            rw [dumps_num, intToStr, if_pos hn]
          rw [hd, List.cons_append, parseF]
          simp [parseNat_natToStr n.natAbs rest hsafe]
          rw [Int.abs_eq_natAbs]
          omega
        · obtain ⟨hdig, _, d, t, hdt, _⟩ := natToStr_spec n.toNat
          have hd : dumps (.num n) = d :: t := by
            rw [dumps_num, intToStr, if_neg hn, hdt]
          have hdd : isDigit d = true := hdig d (by rw [hdt]; simp)
          have h1 : ¬d = '{' := isDigit_ne d '{' hdd rfl
          have h2 : ¬d = '[' := isDigit_ne d '[' hdd rfl
          have h3 : ¬d = '"' := isDigit_ne d '"' hdd rfl
          have h4 : ¬d = 't' := isDigit_ne d 't' hdd rfl
          have h5 : ¬d = 'f' := isDigit_ne d 'f' hdd rfl
          have h6 : ¬d = 'n' := isDigit_ne d 'n' hdd rfl
          have h7 : ¬d = '-' := isDigit_ne d '-' hdd rfl
          have hcat : d :: (t ++ rest) = natToStr n.toNat ++ rest := by
            rw [hdt]; simp
          rw [hd, List.cons_append, parseF]
          simp only [h1, h2, h3, h4, h5, h6, h7, hdd, if_false, if_true,
            ite_false, ite_true]
          simp only [hcat, parseNat_natToStr n.toNat rest hsafe]
          simp [Int.toNat_of_nonneg (by omega : (0 : Int) ≤ n)]
      | str s =>
        rw [dumps_str, List.cons_append, parseF]
        simp [List.append_assoc, parseStrBody_dumpBody s rest]
      | arr l =>
        cases l with
        | nil => rfl
        | cons v vs =>
          rw [dumps_arr_cons] at hlen
          simp only [List.length_cons, List.length_append] at hlen
          rw [dumps_arr_cons, List.cons_append, parseF]
          have hassoc : ((dumps v ++ dumpsItems vs) ++ [']']) ++ rest =
              dumps v ++ (dumpsItems vs ++ ']' :: rest) := by simp
          obtain ⟨c, t, hct, hws, hbr, _⟩ := dumps_head_prop v
          have hskip : skipWS (((dumps v ++ dumpsItems vs) ++ [']']) ++ rest) =
              c :: (t ++ (dumpsItems vs ++ ']' :: rest)) := by
            rw [hassoc, skipWS_dumps_append, hct, List.cons_append]
          simp only [hskip]
          simp only [hbr, if_false, ite_false]
          have hback : c :: (t ++ (dumpsItems vs ++ ']' :: rest)) =
              (dumps v ++ dumpsItems vs) ++ ']' :: rest := by
            rw [hct]; simp
          rw [hback]
          exact ihB v vs rest (by simp [List.length_append]; omega)
      | obj l =>
        cases l with
        | nil => rfl
        | cons m ms =>
          rw [dumps_obj_cons] at hlen
          simp only [List.length_cons, List.length_append] at hlen
          rw [dumps_obj_cons, List.cons_append, parseF]
          obtain ⟨k, v⟩ := m
          have hassoc : ((dumpsMember (k, v) ++ dumpsMembers ms) ++ ['}']) ++ rest =
              dumpsMember (k, v) ++ (dumpsMembers ms ++ '}' :: rest) := by simp
          have hskip : skipWS (((dumpsMember (k, v) ++ dumpsMembers ms) ++ ['}'])
              ++ rest) = '"' :: (((dumpStrBody k ++ ['"']) ++ ':' :: ' ' :: dumps v)
                ++ (dumpsMembers ms ++ '}' :: rest)) := by
            rw [hassoc, dumpsMember_eq, List.cons_append]
            exact skipWS_cons_nonws '"' _ rfl
          simp only [hskip]
          have hback : ('"' : Char) :: (((dumpStrBody k ++ ['"']) ++
              ':' :: ' ' :: dumps v) ++ (dumpsMembers ms ++ '}' :: rest)) =
              (dumpsMember (k, v) ++ dumpsMembers ms) ++ '}' :: rest := by
            rw [dumpsMember_eq]; simp
          simp only [show ¬('"' : Char) = '}' by decide, if_false, ite_false]
          rw [hback]
          exact ihC (k, v) ms rest (by simp [List.length_append]; omega)
    · -- array-elements position
      intro v vs rest hlen
      have hassoc : (dumps v ++ dumpsItems vs) ++ ']' :: rest =
          dumps v ++ (dumpsItems vs ++ ']' :: rest) := by simp
      rw [hassoc, parseF]
      have hsafe2 : headSafe (dumpsItems vs ++ ']' :: rest) = true := by
        cases vs with
        | nil => rfl
        | cons u vs' => rfl
      have hvlen : (dumps v).length ≤ f := by
        simp only [List.length_append] at hlen
        omega
      rw [ihA v (dumpsItems vs ++ ']' :: rest) hvlen hsafe2]
      cases vs with
      | nil =>
        simp only [show dumpsItems ([] : List Json) = [] from rfl,
          List.nil_append]
        rw [skipWS_cons_nonws ']' rest rfl]
        simp
      | cons u vs' =>
        simp only [dumpsItems_cons]
        have hz : ((',' :: ' ' :: (dumps u ++ dumpsItems vs')) ++ ']' :: rest) =
            ',' :: ' ' :: ((dumps u ++ dumpsItems vs') ++ ']' :: rest) := by simp
        simp only [List.cons_append]
        rw [skipWS_cons_nonws ',' _ rfl]
        simp only [show ¬(',' = ']') by decide, show (',' = ',') = True by simp,
          if_false, if_true, ite_false, ite_true]
        have hskip2 : skipWS (' ' :: ((dumps u ++ dumpsItems vs') ++ ']' :: rest)) =
            (dumps u ++ dumpsItems vs') ++ ']' :: rest := by
          rw [skipWS_space, List.append_assoc, skipWS_dumps_append,
            ← List.append_assoc]
        simp only [List.cons_append] at hskip2 ⊢
        rw [hskip2]
        rw [ihB u vs' rest (by
          simp only [List.length_append, dumpsItems_cons, List.length_cons]
            at hlen ⊢
          have := dumps_length_pos v
          omega)]
    · -- object-members position
      intro m ms rest hlen
      obtain ⟨k, v⟩ := m
      have hshape : (dumpsMember (k, v) ++ dumpsMembers ms) ++ '}' :: rest =
          '"' :: (dumpStrBody k ++ '"' ::
            (':' :: ' ' :: (dumps v ++ (dumpsMembers ms ++ '}' :: rest)))) := by
        rw [dumpsMember_eq]
        simp
      have hm : (dumpsMember (k, v)).length =
          (dumpStrBody k).length + 4 + (dumps v).length := by
        rw [dumpsMember_eq]
        simp [List.length_append]
        omega
      rw [hshape, parseF]
      simp only [parseStrBody_dumpBody k]
      rw [skipWS_cons_nonws ':' _ rfl]
      simp only [show (':' = ':') = True by simp, if_true, ite_true]
      have hskip3 : skipWS (' ' :: (dumps v ++ (dumpsMembers ms ++ '}' :: rest))) =
          dumps v ++ (dumpsMembers ms ++ '}' :: rest) := by
        rw [skipWS_space, skipWS_dumps_append]
      rw [hskip3]
      have hsafe3 : headSafe (dumpsMembers ms ++ '}' :: rest) = true := by
        cases ms with
        | nil => rfl
        | cons m2 ms' => rfl
      have hvlen : (dumps v).length ≤ f := by
        simp only [List.length_append] at hlen
        omega
      rw [ihA v (dumpsMembers ms ++ '}' :: rest) hvlen hsafe3]
      cases ms with
      | nil =>
        simp only [show dumpsMembers ([] : List (Str × Json)) = [] from rfl,
          List.nil_append]
        rw [skipWS_cons_nonws '}' rest rfl]
        simp
      | cons m2 ms' =>
        simp only [dumpsMembers_cons]
        simp only [List.cons_append]
        rw [skipWS_cons_nonws ',' _ rfl]
        simp only [show ¬(',' = '}') by decide, show (',' = ',') = True by simp,
          if_false, if_true, ite_false, ite_true]
        have hskip4 : skipWS (' ' :: ((dumpsMember m2 ++ dumpsMembers ms')
            ++ '}' :: rest)) =
            (dumpsMember m2 ++ dumpsMembers ms') ++ '}' :: rest := by
          rw [skipWS_space, List.append_assoc, skipWS_dumpsMember_append,
            ← List.append_assoc]
        simp only [List.cons_append] at hskip4 ⊢
        rw [hskip4]
        rw [ihC m2 ms' rest (by
          simp only [List.length_append, dumpsMembers_cons, List.length_cons]
            at hlen ⊢
          have := dumpsMember_length_pos (k, v)
          omega)]

/-- `json.loads` inverts `json.dumps` on every value of the model. -/
theorem json_loads_dumps (X : Json) : json_loads (dumps X) = some X := by
  obtain ⟨c, t, hct, hws, _, _⟩ := dumps_head_prop X
  have hskip : skipWS (dumps X) = dumps X := by
    rw [hct]
    exact skipWS_cons_nonws c t hws
  unfold json_loads
  rw [hskip]
  have hA := (parse_dumps ((dumps X).length + 1)).1 X [] (by omega) rfl
  rw [show dumps X ++ [] = dumps X from by simp] at hA
  rw [hA]
  rfl

/-! ## Backtick-run analysis for the fence stripper -/

/-- Scan for a run of `k` consecutive backticks, carrying the length `cnt`
of the current run. -/
def hasRunAux (k : Nat) : Nat → Str → Bool
  | _, [] => false
  | cnt, c :: rest =>
    if c = bt then
      (if k ≤ cnt + 1 then true else hasRunAux k (cnt + 1) rest)
    else hasRunAux k 0 rest

theorem hasRunAux_mono (k : Nat) :
    ∀ s c1 c2, c1 ≤ c2 → hasRunAux k c2 s = false → hasRunAux k c1 s = false := by
  intro s
  induction s with
  | nil => intro c1 c2 _ _; rfl
  | cons c rest ih =>
    intro c1 c2 hle h
    by_cases hc : c = bt
    · rw [hasRunAux, if_pos hc] at h ⊢
      by_cases hk : k ≤ c2 + 1
      · rw [if_pos hk] at h
        cases h
      · rw [if_neg hk] at h
        rw [if_neg (by omega)]
        exact ih (c1 + 1) (c2 + 1) (by omega) h
    · rw [hasRunAux, if_neg hc] at h ⊢
      exact h

theorem hasRunAux_tail (k : Nat) (c : Char) (s : Str)
    (h : hasRunAux k 0 (c :: s) = false) : hasRunAux k 0 s = false := by
  by_cases hc : c = bt
  · rw [hasRunAux, if_pos hc] at h
    by_cases hk : k ≤ 0 + 1
    · rw [if_pos hk] at h
      cases h
    · rw [if_neg hk] at h
      exact hasRunAux_mono k s 0 1 (by omega) h
  · rw [hasRunAux, if_neg hc] at h
    exact h

theorem hasRunAux_cons_nonbt (k : Nat) (cnt : Nat) (c : Char) (s : Str)
    (hc : c ≠ bt) : hasRunAux k cnt (c :: s) = hasRunAux k 0 s := by
  rw [hasRunAux, if_neg hc]

theorem hasRunAux_append_nonbt (k : Nat) (c : Char) (hc : c ≠ bt) :
    ∀ s cnt, hasRunAux k cnt (s ++ [c]) = hasRunAux k cnt s := by
  intro s
  induction s with
  | nil =>
    intro cnt
    simp [hasRunAux, hc]
  | cons d rest ih =>
    intro cnt
    by_cases hd : d = bt
    · rw [List.cons_append, hasRunAux, if_pos hd, hasRunAux, if_pos hd]
      by_cases hk : k ≤ cnt + 1
      · rw [if_pos hk, if_pos hk]
      · rw [if_neg hk, if_neg hk]
        exact ih (cnt + 1)
    · rw [List.cons_append, hasRunAux, if_neg hd, hasRunAux, if_neg hd]
      exact ih 0

theorem hasRunAux_triple (rest : Str) :
    hasRunAux 3 0 (bt :: bt :: bt :: rest) = true := by
  rw [hasRunAux, if_pos rfl, if_neg (by omega), hasRunAux, if_pos rfl,
    if_neg (by omega), hasRunAux, if_pos rfl, if_pos (by omega)]

/-! ## Behaviour of the fence stripper away from backtick runs -/

theorem replace3_triple (rest : Str) :
    replace3 (bt :: bt :: bt :: rest) = replace3 rest := by
  rw [replace3]
  simp

theorem replace6_six (rest : Str) :
    replace6 (bt :: bt :: bt :: bt :: bt :: bt :: rest) = replace6 rest := by
  rw [replace6]
  simp

theorem replace3_cons_of_not (c : Char) (s : Str)
    (h : ¬(c = bt ∧ s.take 2 = [bt, bt])) :
    replace3 (c :: s) = c :: replace3 s := by
  match s with
  | [] => rfl
  | [d] => rfl
  | d :: e :: rest =>
    cases hcond : (c = bt && d = bt && e = bt) with
    | true =>
      exfalso
      simp only [Bool.and_eq_true, decide_eq_true_eq] at hcond
      obtain ⟨⟨hc, hd⟩, he⟩ := hcond
      exact h ⟨hc, by simp [List.take, hd, he]⟩
    | false =>
      rw [replace3, if_neg (by simp [hcond])]

theorem replace6_cons_of_not (c : Char) (s : Str)
    (h : ¬(c = bt ∧ s.take 5 = [bt, bt, bt, bt, bt])) :
    replace6 (c :: s) = c :: replace6 s := by
  match s with
  | [] => rfl
  | [d1] => rfl
  | [d1, d2] => rfl
  | [d1, d2, d3] => rfl
  | [d1, d2, d3, d4] => rfl
  | d1 :: d2 :: d3 :: d4 :: d5 :: rest =>
    cases hcond : (c = bt && d1 = bt && d2 = bt && d3 = bt && d4 = bt && d5 = bt) with
    | true =>
      exfalso
      simp only [Bool.and_eq_true, decide_eq_true_eq] at hcond
      obtain ⟨⟨⟨⟨⟨hc, h1⟩, h2⟩, h3⟩, h4⟩, h5⟩ := hcond
      exact h ⟨hc, by simp [List.take, h1, h2, h3, h4, h5]⟩
    | false =>
      rw [replace6, if_neg (by simp [hcond])]

theorem replace3_skip_nonbt :
    ∀ pre s, (∀ c ∈ pre, c ≠ bt) → replace3 (pre ++ s) = pre ++ replace3 s := by
  intro pre
  induction pre with
  | nil => intro s _; simp
  | cons c pre' ih =>
    intro s h
    have hc : c ≠ bt := h c (by simp)
    rw [List.cons_append, replace3_cons_of_not c _ (fun hcon => hc hcon.1),
      ih s (fun d hd => h d (by simp [hd]))]
    rfl

theorem replace6_skip_nonbt :
    ∀ pre s, (∀ c ∈ pre, c ≠ bt) → replace6 (pre ++ s) = pre ++ replace6 s := by
  intro pre
  induction pre with
  | nil => intro s _; simp
  | cons c pre' ih =>
    intro s h
    have hc : c ≠ bt := h c (by simp)
    rw [List.cons_append, replace6_cons_of_not c _ (fun hcon => hc hcon.1),
      ih s (fun d hd => h d (by simp [hd]))]
    rfl

theorem replace6_bbb (c : Char) (s : Str) (hc : c ≠ bt) :
    replace6 (bt :: bt :: bt :: c :: s) = bt :: bt :: bt :: replace6 (c :: s) := by
  rw [replace6_cons_of_not bt (bt :: bt :: c :: s) ?h1,
    replace6_cons_of_not bt (bt :: c :: s) ?h2,
    replace6_cons_of_not bt (c :: s) ?h3]
  case h1 =>
    intro ⟨_, htake⟩
    simp [List.take] at htake
    exact hc htake.1
  case h2 =>
    intro ⟨_, htake⟩
    simp [List.take] at htake
    exact hc htake.1
  case h3 =>
    intro ⟨_, htake⟩
    simp [List.take] at htake
    exact hc htake.1

theorem replace6_body :
    ∀ s, hasRunAux 3 0 (s ++ ['\n']) = false →
      replace6 (s ++ '\n' :: [bt, bt, bt]) = s ++ '\n' :: [bt, bt, bt] := by
  intro s
  induction s with
  | nil => intro _; rfl
  | cons c s' ih =>
    intro h
    have htail : hasRunAux 3 0 (s' ++ ['\n']) = false :=
      hasRunAux_tail 3 c _ (by simpa using h)
    rw [List.cons_append, replace6_cons_of_not c _ ?hcond, ih htail]
    case hcond =>
      intro ⟨hc, htake⟩
      subst hc
      have h2 : (s' ++ '\n' :: [bt, bt, bt]).take 2 = [bt, bt] := by
        have := congrArg (List.take 2) htake
        simpa [List.take_take] using this
      cases s' with
      | nil =>
        simp [List.take] at h2
        exact absurd h2 (by decide)
      | cons d s'' =>
        cases s'' with
        | nil =>
          simp [List.take] at h2
          exact absurd h2.2 (by decide)
        | cons e s''' =>
          simp [List.take] at h2
          obtain ⟨rfl, rfl⟩ := h2
          simp only [List.cons_append] at h
          rw [hasRunAux_triple] at h
          cases h

theorem replace3_body :
    ∀ s, hasRunAux 3 0 (s ++ ['\n']) = false →
      replace3 (s ++ '\n' :: [bt, bt, bt]) = s ++ ['\n'] := by
  intro s
  induction s with
  | nil => intro _; rfl
  | cons c s' ih =>
    intro h
    have htail : hasRunAux 3 0 (s' ++ ['\n']) = false :=
      hasRunAux_tail 3 c _ (by simpa using h)
    rw [List.cons_append, replace3_cons_of_not c _ ?hcond, ih htail]
    case hcond =>
      intro ⟨hc, htake⟩
      subst hc
      cases s' with
      | nil =>
        simp [List.take] at htake
        exact absurd htake (by decide)
      | cons d s'' =>
        cases s'' with
        | nil =>
          simp [List.take] at htake
          exact absurd htake.2 (by decide)
        | cons e s''' =>
          simp [List.take] at htake
          obtain ⟨rfl, rfl⟩ := htake
          simp only [List.cons_append] at h
          rw [hasRunAux_triple] at h
          cases h
    rfl

/-! ## Stripping and greedy matching of the cleaned text -/

theorem strip_cons_space (c : Char) (y : Str) (h : pyIsSpace c = true) :
    strip (c :: y) = strip y := by
  unfold strip
  rw [List.dropWhile_cons, if_pos h]

theorem strip_append_trailing (a : Str) (sp : Char) (hsp : pyIsSpace sp = true)
    (hhead : ∃ c t, a = c :: t ∧ pyIsSpace c = false)
    (hlast : ∃ c t, a.reverse = c :: t ∧ pyIsSpace c = false) :
    strip (a ++ [sp]) = a := by
  obtain ⟨c, t, hct, hc⟩ := hhead
  obtain ⟨d, u, hdu, hd⟩ := hlast
  unfold strip
  rw [hct, List.cons_append, List.dropWhile_cons, if_neg (by simp [hc]),
    ← List.cons_append, ← hct, List.reverse_append]
  simp only [List.reverse_singleton, List.singleton_append]
  rw [List.dropWhile_cons, if_pos hsp, hdu, List.dropWhile_cons,
    if_neg (by simp [hd]), ← hdu, List.reverse_reverse]

theorem firstIdx_cons_self (c : Char) (s : Str) : firstIdx c (c :: s) = some 0 := by
  simp [firstIdx]

theorem firstIdx_append_not_mem (c : Char) :
    ∀ pre s, c ∉ pre →
      firstIdx c (pre ++ s) = (firstIdx c s).map (· + pre.length) := by
  intro pre
  induction pre with
  | nil =>
    intro s _
    rw [List.nil_append]
    cases h : firstIdx c s <;> simp
  | cons d pre' ih =>
    intro s h
    have hd : ¬d = c := fun he => h (by simp [he])
    rw [List.cons_append, firstIdx, if_neg hd,
      ih s (fun hmem => h (by simp [hmem]))]
    cases firstIdx c s with
    | none => rfl
    | some k =>
      show some (k + pre'.length + 1) = some (k + (d :: pre').length)
      simp only [Option.some.injEq, List.length_cons]
      omega

theorem greedy_wrap (pre mid : Str) (hpre : '{' ∉ pre) :
    greedyMatch '{' '}' (pre ++ '{' :: (mid ++ ['}'])) =
      some ('{' :: (mid ++ ['}'])) := by
  have hfirst : firstIdx '{' (pre ++ '{' :: (mid ++ ['}'])) = some pre.length := by
    rw [firstIdx_append_not_mem '{' pre _ hpre, firstIdx_cons_self]
    simp
  have hrev : (pre ++ '{' :: (mid ++ ['}'])).reverse =
      '}' :: (mid.reverse ++ '{' :: pre.reverse) := by
    simp
  have hlast : lastIdx '}' (pre ++ '{' :: (mid ++ ['}'])) =
      some ((pre ++ '{' :: (mid ++ ['}'])).length - 1) := by
    unfold lastIdx
    rw [hrev, firstIdx_cons_self]
    simp
  have hlen : (pre ++ '{' :: (mid ++ ['}'])).length =
      pre.length + mid.length + 2 := by
    simp only [List.length_append, List.length_cons, List.length_nil]
    omega
  unfold greedyMatch
  rw [hfirst, hlast]
  show (if pre.length < (pre ++ '{' :: (mid ++ ['}'])).length - 1 then
      some (List.take ((pre ++ '{' :: (mid ++ ['}'])).length - 1 - pre.length + 1)
        (List.drop pre.length (pre ++ '{' :: (mid ++ ['}'])))) else none) =
    some ('{' :: (mid ++ ['}']))
  rw [if_pos (by rw [hlen]; omega)]
  rw [List.drop_left pre ('{' :: (mid ++ ['}']))]
  have htakelen : (pre ++ '{' :: (mid ++ ['}'])).length - 1 - pre.length + 1 =
      ('{' :: (mid ++ ['}'])).length := by
    rw [hlen]
    simp only [List.length_append, List.length_cons, List.length_nil]
    omega
  rw [htakelen, List.take_length]

/-- Claim C1 as amended: for every JSON object X (a Python dict value) whose
serialised text contains no run of three backticks, wrapping `dumps X` in a
triple-backtick code fence — with or without the `json` language tag — and
passing the result to `clean_json_response` returns exactly X. (The
counterexample forces the restriction to objects: scalars fail outright
under a language tag, arrays can be shadowed by an embedded object since
the brace pattern is tried first, and a triple backtick inside a string is
destroyed by fence stripping.) -/
theorem claim_C1 (fields : List (Str × Json))
    (hwf : wfJson (Json.obj fields) = true)
    (hticks : hasRunAux 3 0 (dumps (Json.obj fields)) = false) :
    clean_json_response (fenceTag (dumps (Json.obj fields))) =
      some (Json.obj fields) ∧
    clean_json_response (fenceNoTag (dumps (Json.obj fields))) =
      some (Json.obj fields) := by
  obtain ⟨inner, hser⟩ : ∃ inner,
      dumps (Json.obj fields) = '{' :: (inner ++ ['}']) := by
    cases fields with
    | nil => exact ⟨[], rfl⟩
    | cons m ms => exact ⟨dumpsMember m ++ dumpsMembers ms, dumps_obj_cons m ms⟩
  have hrun : hasRunAux 3 0 (dumps (Json.obj fields) ++ ['\n']) = false := by
    rw [hasRunAux_append_nonbt 3 '\n' (by decide)]
    exact hticks
  have hloads : json_loads (dumps (Json.obj fields)) = some (Json.obj fields) :=
    json_loads_dumps (Json.obj fields)
  have hheadser : ∃ c t, dumps (Json.obj fields) = c :: t ∧ pyIsSpace c = false := by
    exact ⟨'{', inner ++ ['}'], hser, by decide⟩
  have hlastser : ∃ c t, (dumps (Json.obj fields)).reverse = c :: t ∧
      pyIsSpace c = false := by
    refine ⟨'}', inner.reverse ++ ['{'], ?_, by decide⟩
    rw [hser]
    simp
  constructor
  · -- with the `json` language tag
    have h0 : fenceTag (dumps (Json.obj fields)) =
        bt :: bt :: bt :: ('j' :: 's' :: 'o' :: 'n' :: '\n' ::
          (dumps (Json.obj fields) ++ '\n' :: [bt, bt, bt])) := rfl
    have h6 : replace6 (fenceTag (dumps (Json.obj fields))) =
        bt :: bt :: bt :: ('j' :: 's' :: 'o' :: 'n' :: '\n' ::
          (dumps (Json.obj fields) ++ '\n' :: [bt, bt, bt])) := by
      rw [h0, replace6_bbb 'j' _ (by decide)]
      rw [show ('j' :: 's' :: 'o' :: 'n' :: '\n' ::
          (dumps (Json.obj fields) ++ '\n' :: [bt, bt, bt])) =
        ['j', 's', 'o', 'n', '\n'] ++
          (dumps (Json.obj fields) ++ '\n' :: [bt, bt, bt]) from rfl]
      rw [replace6_skip_nonbt ['j', 's', 'o', 'n', '\n'] _ (by decide),
        replace6_body (dumps (Json.obj fields)) hrun]
    have h3 : replace3 (bt :: bt :: bt :: ('j' :: 's' :: 'o' :: 'n' :: '\n' ::
        (dumps (Json.obj fields) ++ '\n' :: [bt, bt, bt]))) =
        ['j', 's', 'o', 'n', '\n'] ++ (dumps (Json.obj fields) ++ ['\n']) := by
      rw [replace3_triple]
      rw [show ('j' :: 's' :: 'o' :: 'n' :: '\n' ::
          (dumps (Json.obj fields) ++ '\n' :: [bt, bt, bt])) =
        ['j', 's', 'o', 'n', '\n'] ++
          (dumps (Json.obj fields) ++ '\n' :: [bt, bt, bt]) from rfl]
      rw [replace3_skip_nonbt ['j', 's', 'o', 'n', '\n'] _ (by decide),
        replace3_body (dumps (Json.obj fields)) hrun]
    have hstrip : strip (['j', 's', 'o', 'n', '\n'] ++
        (dumps (Json.obj fields) ++ ['\n'])) =
        ['j', 's', 'o', 'n', '\n'] ++ dumps (Json.obj fields) := by
      rw [show (['j', 's', 'o', 'n', '\n'] ++
          (dumps (Json.obj fields) ++ ['\n'])) =
        (['j', 's', 'o', 'n', '\n'] ++ dumps (Json.obj fields)) ++ ['\n'] from by
          simp]
      refine strip_append_trailing _ '\n' (by decide) ?_ ?_
      · exact ⟨'j', ['s', 'o', 'n', '\n'] ++ dumps (Json.obj fields),
          rfl, by decide⟩
      · obtain ⟨d, u, hdu, hd⟩ := hlastser
        refine ⟨d, u ++ ['\n', 'n', 'o', 's', 'j'], ?_, hd⟩
        rw [List.reverse_append, hdu]
        rfl
    have hgreedy : greedyMatch '{' '}'
        (['j', 's', 'o', 'n', '\n'] ++ dumps (Json.obj fields)) =
        some (dumps (Json.obj fields)) := by
      rw [hser]
      exact greedy_wrap ['j', 's', 'o', 'n', '\n'] inner (by decide)
    have hne : fenceTag (dumps (Json.obj fields)) ≠ [] := by
      rw [h0]
      simp
    unfold clean_json_response
    rw [if_neg hne]
    simp only [h6, h3, hstrip, hgreedy, Option.some_bind, hloads]
  · -- without a language tag
    have h0 : fenceNoTag (dumps (Json.obj fields)) =
        bt :: bt :: bt :: ('\n' ::
          (dumps (Json.obj fields) ++ '\n' :: [bt, bt, bt])) := rfl
    have h6 : replace6 (fenceNoTag (dumps (Json.obj fields))) =
        bt :: bt :: bt :: ('\n' ::
          (dumps (Json.obj fields) ++ '\n' :: [bt, bt, bt])) := by
      rw [h0, replace6_bbb '\n' _ (by decide)]
      rw [show ('\n' :: (dumps (Json.obj fields) ++ '\n' :: [bt, bt, bt])) =
        ['\n'] ++ (dumps (Json.obj fields) ++ '\n' :: [bt, bt, bt]) from rfl]
      rw [replace6_skip_nonbt ['\n'] _ (by decide),
        replace6_body (dumps (Json.obj fields)) hrun]
    have h3 : replace3 (bt :: bt :: bt :: ('\n' ::
        (dumps (Json.obj fields) ++ '\n' :: [bt, bt, bt]))) =
        ['\n'] ++ (dumps (Json.obj fields) ++ ['\n']) := by
      rw [replace3_triple]
      rw [show ('\n' :: (dumps (Json.obj fields) ++ '\n' :: [bt, bt, bt])) =
        ['\n'] ++ (dumps (Json.obj fields) ++ '\n' :: [bt, bt, bt]) from rfl]
      rw [replace3_skip_nonbt ['\n'] _ (by decide),
        replace3_body (dumps (Json.obj fields)) hrun]
    have hstrip : strip (['\n'] ++ (dumps (Json.obj fields) ++ ['\n'])) =
        dumps (Json.obj fields) := by
      rw [show (['\n'] ++ (dumps (Json.obj fields) ++ ['\n'])) =
        '\n' :: (dumps (Json.obj fields) ++ ['\n']) from rfl]
      rw [strip_cons_space '\n' _ (by decide)]
      exact strip_append_trailing _ '\n' (by decide) hheadser hlastser
    have hgreedy : greedyMatch '{' '}' (dumps (Json.obj fields)) =
        some (dumps (Json.obj fields)) := by
      rw [hser]
      have := greedy_wrap [] inner (by simp)
      simpa using this
    have hne : fenceNoTag (dumps (Json.obj fields)) ≠ [] := by
      rw [h0]
      simp
    unfold clean_json_response
    rw [if_neg hne]
    simp only [h6, h3, hstrip, hgreedy, Option.some_bind, hloads]

theorem claim_C1_witness :
    wfJson (Json.obj [(toStr "chapter_name", Json.str (toStr "Sound")),
      (toStr "topics", Json.arr [])]) = true ∧
    hasRunAux 3 0 (dumps (Json.obj [(toStr "chapter_name",
      Json.str (toStr "Sound")), (toStr "topics", Json.arr [])])) = false ∧
    (clean_json_response (fenceTag (dumps (Json.obj
        [(toStr "chapter_name", Json.str (toStr "Sound")),
         (toStr "topics", Json.arr [])]))) =
      some (Json.obj [(toStr "chapter_name", Json.str (toStr "Sound")),
        (toStr "topics", Json.arr [])]) ∧
     clean_json_response (fenceNoTag (dumps (Json.obj
        [(toStr "chapter_name", Json.str (toStr "Sound")),
         (toStr "topics", Json.arr [])]))) =
      some (Json.obj [(toStr "chapter_name", Json.str (toStr "Sound")),
        (toStr "topics", Json.arr [])])) :=
  ⟨rfl, rfl,
    claim_C1 [(toStr "chapter_name", Json.str (toStr "Sound")),
      (toStr "topics", Json.arr [])] rfl rfl⟩
